import Mathlib

/-
  Shallow embedding of the boolean_calculator core (Positional Cube Notation,
  cofactors, tautology check, recursive complement, and the meta-analysis
  used to pick recursion variables), translated from src/src/pcn.cpp,
  src/src/algorithm.cpp and src/src/meta.cpp.
-/

namespace URP

/-- Two-bit positional code of one variable inside a product term
    (pcn.h, class Factor): b1 b0 with 01 positive, 10 negative,
    11 dont-care, 00 zero. -/
structure Factor where
  b1 : Bool
  b0 : Bool
deriving DecidableEq

namespace Factor

/-- Factor::pos, the code 01. -/
def pos : Factor := ⟨false, true⟩

/-- Factor::neg, the code 10. -/
def neg : Factor := ⟨true, false⟩

/-- Factor::one, the code 11. -/
def one : Factor := ⟨true, true⟩

/-- Factor::zero, the code 00. -/
def zero : Factor := ⟨false, false⟩

/-- positive_cofactor on a Factor (algorithm.cpp): if the low bit is 0
    the result is zero, otherwise one. -/
def positive_cofactor (f : Factor) : Factor :=
  if f.b0 = false then zero else one

/-- negative_cofactor on a Factor (algorithm.cpp): if the high bit is 0
    the result is zero, otherwise one. -/
def negative_cofactor (f : Factor) : Factor :=
  if f.b1 = false then zero else one

/-- bool_and on Factors (algorithm.cpp): bitwise AND of the two bits. -/
def bool_and (f g : Factor) : Factor := ⟨f.b1 && g.b1, f.b0 && g.b0⟩

/-- bool_or on Factors (algorithm.cpp): bitwise OR of the two bits. -/
def bool_or (f g : Factor) : Factor := ⟨f.b1 || g.b1, f.b0 || g.b0⟩

/-- bool_not on a Factor (algorithm.cpp): bitwise negation of the two bits. -/
def bool_not (f : Factor) : Factor := ⟨!f.b1, !f.b0⟩

/-- A factor is enumerated when the variable appears in the term,
    positively or negatively. -/
def is_enum (f : Factor) : Bool := decide (f = pos) || decide (f = neg)

/-- Semantics of a factor: its truth value once the boolean value of its
    variable is fixed. A positive factor is true exactly at true, a
    negative one exactly at false, one always, zero never. -/
def eval (f : Factor) (b : Bool) : Bool := if b then f.b0 else f.b1

end Factor

/-- A Cube (pcn.h) is the positional vector of the N Factors of one
    product term. -/
abbrev Cube := List Factor

namespace Cube

/-- Positional access, Cube::at. The source uses bounds-checked access and
    the core keeps every index in range; out of range we totalize with the
    zero factor. -/
def factorAt (c : Cube) (i : Nat) : Factor := c.getD i Factor.zero

/-- Cube::is_zero: some factor is the zero code. -/
def is_zero (c : Cube) : Bool := c.any (fun f => decide (f = Factor.zero))

/-- Cube::is_tautology: every factor is the dont-care code. -/
def is_tautology (c : Cube) : Bool := c.all (fun f => decide (f = Factor.one))

/-- The Cube(n) constructor: n dont-care factors. -/
def ones (n : Nat) : Cube := List.replicate n Factor.one

/-- positive_cofactor of a Cube at index idx (algorithm.cpp): replace the
    factor at idx by its factor-level positive cofactor. -/
def positive_cofactor (c : Cube) (idx : Nat) : Cube :=
  c.set idx (Factor.positive_cofactor (c.factorAt idx))

/-- negative_cofactor of a Cube at index idx (algorithm.cpp). -/
def negative_cofactor (c : Cube) (idx : Nat) : Cube :=
  c.set idx (Factor.negative_cofactor (c.factorAt idx))

/-- Product semantics of a cube, position by position from index i. -/
def evalFrom (a : Nat → Bool) : Nat → List Factor → Bool
  | _, [] => true
  | i, f :: fs => f.eval (a i) && Cube.evalFrom a (i + 1) fs

/-- Semantics of a cube under an assignment: the conjunction of the factor
    semantics at each position. -/
def eval (c : Cube) (a : Nat → Bool) : Bool := Cube.evalFrom a 0 c

end Cube

/-- BooleanVariable (pcn.h): a variable index together with a polarity. -/
structure BooleanVariable where
  idx : Nat
  pol : Factor

/-- bool_and of a BooleanVariable with a Cube (algorithm.cpp): only the
    factor at position idx is conjoined with the polarity. -/
def Cube.bool_and (v : BooleanVariable) (c : Cube) : Cube :=
  c.set v.idx (Factor.bool_and v.pol (c.factorAt v.idx))

/-- CubeList (pcn.h): an SOP, a list of cubes together with the arity dim
    fixed at construction. -/
structure CubeList where
  dim : Nat
  list : List Cube
deriving DecidableEq

namespace CubeList

/-- CubeList::N, the stored arity. -/
def N (F : CubeList) : Nat := F.dim

/-- CubeList::size, the number of cubes. -/
def size (F : CubeList) : Nat := F.list.length

/-- CubeList::is_zero: no cubes, or every cube is zero. -/
def is_zero (F : CubeList) : Bool :=
  decide (F.size = 0) || F.list.all Cube.is_zero

/-- CubeList::contains: linear search for an element-wise equal cube. -/
def contains (F : CubeList) (c : Cube) : Bool :=
  F.list.any (fun d => decide (d = c))

/-- Semantics of an SOP under an assignment: disjunction of its cubes. -/
def eval (F : CubeList) (a : Nat → Bool) : Bool :=
  F.list.any (fun c => c.eval a)

/-- positive_cofactor of a CubeList (algorithm.cpp): cofactor each cube,
    pushing back only the non-zero results; the arity is taken from the
    argument. -/
def positive_cofactor (F : CubeList) (idx : Nat) : CubeList :=
  ⟨F.N, (F.list.map (fun c => c.positive_cofactor idx)).filter (fun c => !c.is_zero)⟩

/-- negative_cofactor of a CubeList (algorithm.cpp). -/
def negative_cofactor (F : CubeList) (idx : Nat) : CubeList :=
  ⟨F.N, (F.list.map (fun c => c.negative_cofactor idx)).filter (fun c => !c.is_zero)⟩

/-- bool_and of a BooleanVariable with a CubeList (algorithm.cpp):
    conjoin the literal into each cube, keeping non-zero results. -/
def bool_and (v : BooleanVariable) (F : CubeList) : CubeList :=
  ⟨F.N, (F.list.map (fun c => Cube.bool_and v c)).filter (fun c => !c.is_zero)⟩

/-- bool_or of two CubeLists (algorithm.cpp): copy the first list and
    append each cube of the second that the first does not contain. The
    source shortcut for OR-ing an object with itself returns a copy of the
    first operand, which coincides with this value-level description. -/
def bool_or (F G : CubeList) : CubeList :=
  ⟨F.N, F.list ++ G.list.filter (fun c => !F.contains c)⟩

end CubeList

/-- The loop of bool_not on a Cube (algorithm.cpp): walk the factors with
    a running variable index, pushing for each factor the single-literal
    cube carrying its complement, and skipping the cube when it is zero. -/
def Cube.bool_not_go (n : Nat) : Nat → List Factor → List Cube
  | _, [] => []
  | i, f :: fs =>
    let k := Cube.bool_and ⟨i, Factor.bool_not f⟩ (Cube.ones n)
    if k.is_zero then Cube.bool_not_go n (i + 1) fs
    else k :: Cube.bool_not_go n (i + 1) fs

/-- bool_not of a Cube (algorithm.cpp): DeMorgan on a single product term.
    The arity of the result is the length of the cube. -/
def Cube.bool_not (c : Cube) : CubeList :=
  ⟨c.length, Cube.bool_not_go c.length 0 c⟩

/-- The factor column a MetaVariable collects (meta.cpp): the factors at
    position idx across the cubes. The source reads the first cube to
    learn the common length and bails out to an empty collection when the
    index is not below it; an empty list stands for the empty collection
    (the core only builds MetaVariables for lists of two or more cubes). -/
def metaFactors (F : CubeList) (idx : Nat) : List Factor :=
  let n := (F.list.headD []).length
  if n = 0 ∨ n ≤ idx then [] else F.list.map (fun c => c.factorAt idx)

namespace MetaVariable

/-- MetaVariable::has_pos over a factor column. -/
def has_pos (ms : List Factor) : Bool := ms.any (fun f => decide (f = Factor.pos))

/-- MetaVariable::has_neg over a factor column. -/
def has_neg (ms : List Factor) : Bool := ms.any (fun f => decide (f = Factor.neg))

/-- MetaVariable::count_pos over a factor column. -/
def count_pos (ms : List Factor) : Nat := ms.countP (fun f => decide (f = Factor.pos))

/-- MetaVariable::count_neg over a factor column. -/
def count_neg (ms : List Factor) : Nat := ms.countP (fun f => decide (f = Factor.neg))

/-- MetaVariable::count_terms: total number of appearances. -/
def count_terms (ms : List Factor) : Nat := count_pos ms + count_neg ms

/-- MetaVariable::abs_t_minus_c: the balance, the absolute difference of
    the polarity counts. -/
def abs_t_minus_c (ms : List Factor) : Nat :=
  ((count_pos ms : Int) - (count_neg ms : Int)).natAbs

/-- MetaVariable::is_unate_in_fn: exactly one polarity appears. -/
def is_unate_in_fn (ms : List Factor) : Bool := has_pos ms ^^ has_neg ms

/-- MetaVariable::is_binate_in_fn: both polarities appear. -/
def is_binate_in_fn (ms : List Factor) : Bool := has_pos ms && has_neg ms

end MetaVariable

namespace MetaFunction

/-- MetaFunction::max_of (meta.cpp): the attribute value at a maximal
    element, zero for an empty collection. -/
def max_of (data : List Nat) (attr : Nat → Nat) : Nat :=
  match data with
  | [] => 0
  | x :: xs => xs.foldl (fun m y => max m (attr y)) (attr x)

/-- MetaFunction::min_of (meta.cpp): the attribute value at a minimal
    element, zero for an empty collection. -/
def min_of (data : List Nat) (attr : Nat → Nat) : Nat :=
  match data with
  | [] => 0
  | x :: xs => xs.foldl (fun m y => min m (attr y)) (attr x)

/-- The binate variable indices of the function (filter over all
    variables, meta.cpp). -/
def binate_vars (F : CubeList) : List Nat :=
  (List.range F.N).filter (fun i => MetaVariable.is_binate_in_fn (metaFactors F i))

/-- The unate variable indices of the function. -/
def unate_vars (F : CubeList) : List Nat :=
  (List.range F.N).filter (fun i => MetaVariable.is_unate_in_fn (metaFactors F i))

/-- The local most_binate_vars of choose_recursion_variable (meta.cpp):
    the binate variables whose count_terms attains the max_of value. -/
def most_binate_vars (F : CubeList) : List Nat :=
  (binate_vars F).filter (fun i => MetaVariable.count_terms (metaFactors F i)
    = max_of (binate_vars F) (fun j => MetaVariable.count_terms (metaFactors F j)))

/-- The local most_balanced_most_binate_vars of choose_recursion_variable
    (meta.cpp): among most_binate_vars, those whose balance attains the
    min_of value. -/
def most_balanced_vars (F : CubeList) : List Nat :=
  (most_binate_vars F).filter (fun i => MetaVariable.abs_t_minus_c (metaFactors F i)
    = min_of (most_binate_vars F) (fun j => MetaVariable.abs_t_minus_c (metaFactors F j)))

/-- The local most_unate_vars of choose_recursion_variable (meta.cpp):
    the unate variables whose count_terms attains the max_of value. -/
def most_unate_vars (F : CubeList) : List Nat :=
  (unate_vars F).filter (fun i => MetaVariable.count_terms (metaFactors F i)
    = max_of (unate_vars F) (fun j => MetaVariable.count_terms (metaFactors F j)))

/-- MetaFunction::choose_recursion_variable (meta.cpp), rules 1 to 5:
    among binate variables take those of maximal count_terms, break ties
    by minimal balance, then return the front of a singleton filter or
    the minimal surviving index; with no binate variables do the same
    over the unate variables without the balance rule. -/
def choose_recursion_variable (F : CubeList) : Nat :=
  if (binate_vars F).length > 0 then
    if (most_binate_vars F).length = 1 then (most_binate_vars F).headD 0
    else if (most_balanced_vars F).length = 1 then (most_balanced_vars F).headD 0
    else min_of (most_balanced_vars F) (fun i => i)
  else
    if (most_unate_vars F).length = 1 then (most_unate_vars F).headD 0
    else min_of (most_unate_vars F) (fun i => i)

end MetaFunction

namespace CubeList

/-- The number of variable positions below the arity that appear
    enumerated (positively or negatively) in some cube. This is the
    termination measure of the two recursions. -/
def enumCount (F : CubeList) : Nat :=
  ((List.range F.N).filter (fun i => F.list.any (fun c => (c.factorAt i).is_enum))).length

/-- is_tautology (algorithm.cpp) with explicit recursion fuel; none means
    the fuel did not cover the recursion depth. The branches mirror the
    source: a face-value tautological cube, the zero SOP, the one-cube
    SOP, then the split on the chosen recursion variable. -/
def is_tautologyF : Nat → CubeList → Option Bool
  | 0, _ => none
  | fuel + 1, F =>
    if F.list.any Cube.is_tautology then some true
    else if F.is_zero then some false
    else if F.size = 1 then some false
    else
      let i := MetaFunction.choose_recursion_variable F
      match is_tautologyF fuel (F.positive_cofactor i),
            is_tautologyF fuel (F.negative_cofactor i) with
      | some a, some b => some (a && b)
      | _, _ => none

/-- is_tautology (algorithm.cpp). The fuel enumCount + 1 is proved
    sufficient for every well-formed list, so the default is never
    consulted there. -/
def is_tautology (F : CubeList) : Bool :=
  (is_tautologyF (F.enumCount + 1) F).getD false

/-- bool_not of a CubeList (algorithm.cpp) with explicit recursion fuel.
    Base cases: the empty SOP complements to the single all-ones cube, a
    tautology complements to the empty SOP of the same arity, a single
    cube complements by DeMorgan; otherwise recombine the complemented
    cofactors with the chosen splitting literal. -/
def bool_notF : Nat → CubeList → Option CubeList
  | 0, _ => none
  | fuel + 1, F =>
    if F.size = 0 then some ⟨F.N, [Cube.ones F.N]⟩
    else if F.is_tautology then some ⟨F.N, []⟩
    else if F.size = 1 then some (Cube.bool_not (F.list.headD []))
    else
      let i := MetaFunction.choose_recursion_variable F
      match bool_notF fuel (F.positive_cofactor i),
            bool_notF fuel (F.negative_cofactor i) with
      | some G, some H =>
        some (CubeList.bool_or (CubeList.bool_and ⟨i, Factor.pos⟩ G)
                               (CubeList.bool_and ⟨i, Factor.neg⟩ H))
      | _, _ => none

/-- bool_not of a CubeList (algorithm.cpp). The fuel enumCount + 1 is
    proved sufficient for every well-formed list, so the default is never
    consulted there. -/
def bool_not (F : CubeList) : CubeList :=
  (bool_notF (F.enumCount + 1) F).getD ⟨F.N, []⟩

/-- A well-formed CubeList: every cube has exactly the stored arity of
    factors and no cube is zero (pcn.h invariants). -/
def wf (F : CubeList) : Prop :=
  ∀ c ∈ F.list, c.length = F.dim ∧ c.is_zero = false

instance wf_decidable (F : CubeList) : Decidable F.wf :=
  inferInstanceAs (Decidable (∀ c ∈ F.list, c.length = F.dim ∧ c.is_zero = false))

end CubeList

/-- The factor column of an SOP at a position, with no guard: the
    sequence of factors of variable idx across the cubes, as the spec
    describes the per-variable statistics. -/
def column (F : CubeList) (idx : Nat) : List Factor :=
  F.list.map (fun c => c.factorAt idx)

/-- Greatest element of a list of naturals, zero if empty. -/
def listMax (l : List Nat) : Nat := l.foldr max 0

/-- Least element of a list of naturals, zero if empty. -/
def listMin : List Nat → Nat
  | [] => 0
  | x :: xs => xs.foldr min x

/-- The binate variables of the spec rule (section 4.4): indices whose
    factor column shows both polarities. -/
def spec_binate (F : CubeList) : List Nat :=
  (List.range F.N).filter (fun i => MetaVariable.is_binate_in_fn (column F i))

/-- The unate variables of the spec rule. -/
def spec_unate (F : CubeList) : List Nat :=
  (List.range F.N).filter (fun i => MetaVariable.is_unate_in_fn (column F i))

/-- Spec rule step 1a: keep the binate variables of maximum count_terms. -/
def spec_keep_binate (F : CubeList) : List Nat :=
  (spec_binate F).filter (fun i => MetaVariable.count_terms (column F i)
    = listMax ((spec_binate F).map (fun j => MetaVariable.count_terms (column F j))))

/-- Spec rule step 1b: among those, keep the variables of minimum balance. -/
def spec_keep_balanced (F : CubeList) : List Nat :=
  (spec_keep_binate F).filter (fun i => MetaVariable.abs_t_minus_c (column F i)
    = listMin ((spec_keep_binate F).map (fun j => MetaVariable.abs_t_minus_c (column F j))))

/-- Spec rule step 2a: keep the unate variables of maximum count_terms. -/
def spec_keep_unate (F : CubeList) : List Nat :=
  (spec_unate F).filter (fun i => MetaVariable.count_terms (column F i)
    = listMax ((spec_unate F).map (fun j => MetaVariable.count_terms (column F j))))

/-- Modelled from the spec, section 4.4 splitting rule: among binate
    variables keep those with maximum count_terms, among those keep those
    with minimum balance, and pick the smallest index; with no binate
    variables keep the unate variables with maximum count_terms and pick
    the smallest index. Used only to compare against the source selection
    procedure. -/
def spec_choose_variable (F : CubeList) : Nat :=
  if spec_binate F ≠ [] then listMin (spec_keep_balanced F)
  else listMin (spec_keep_unate F)

end URP

namespace URP

/-- Boolean extensionality through truth of the two sides. -/
theorem bool_eq_of_iff {a b : Bool} (h : a = true ↔ b = true) : a = b := by
  cases a <;> cases b <;> simp_all

namespace Factor

theorem cases_all (f : Factor) : f = pos ∨ f = neg ∨ f = one ∨ f = zero := by
  rcases f with ⟨b1, b0⟩
  revert b1 b0
  decide

theorem eval_pos (b : Bool) : pos.eval b = b := by cases b <;> rfl

theorem eval_neg (b : Bool) : neg.eval b = !b := by cases b <;> rfl

theorem eval_one (b : Bool) : one.eval b = true := by cases b <;> rfl

theorem eval_zero (b : Bool) : zero.eval b = false := by cases b <;> rfl

theorem eval_bool_not (f : Factor) (b : Bool) : (bool_not f).eval b = !(f.eval b) := by
  rcases f with ⟨b1, b0⟩
  revert b1 b0 b
  decide

theorem eval_bool_and (f g : Factor) (b : Bool) :
    (bool_and f g).eval b = (f.eval b && g.eval b) := by
  rcases f with ⟨b1, b0⟩
  rcases g with ⟨c1, c0⟩
  revert b1 b0 c1 c0 b
  decide

theorem eval_positive_cofactor (f : Factor) (b : Bool) :
    (positive_cofactor f).eval b = f.eval true := by
  rcases f with ⟨b1, b0⟩
  revert b1 b0 b
  decide

theorem eval_negative_cofactor (f : Factor) (b : Bool) :
    (negative_cofactor f).eval b = f.eval false := by
  rcases f with ⟨b1, b0⟩
  revert b1 b0 b
  decide

theorem bool_and_one (f : Factor) : bool_and f one = f := by
  rcases f with ⟨b1, b0⟩
  revert b1 b0
  decide

theorem bool_not_eq_zero_iff (f : Factor) : bool_not f = zero ↔ f = one := by
  rcases f with ⟨b1, b0⟩
  revert b1 b0
  decide

theorem positive_cofactor_cases (f : Factor) :
    positive_cofactor f = one ∨ positive_cofactor f = zero := by
  rcases f with ⟨b1, b0⟩
  revert b1 b0
  decide

theorem negative_cofactor_cases (f : Factor) :
    negative_cofactor f = one ∨ negative_cofactor f = zero := by
  rcases f with ⟨b1, b0⟩
  revert b1 b0
  decide

theorem is_enum_true_iff (f : Factor) : f.is_enum = true ↔ (f = pos ∨ f = neg) := by
  rcases f with ⟨b1, b0⟩
  revert b1 b0
  decide

theorem is_enum_false_iff (f : Factor) : f.is_enum = false ↔ (f = one ∨ f = zero) := by
  rcases f with ⟨b1, b0⟩
  revert b1 b0
  decide

end Factor

namespace Cube

theorem factorAt_eq_get {c : Cube} {j : Nat} (h : j < c.length) :
    Cube.factorAt c j = c.get ⟨j, h⟩ := by
  simp [Cube.factorAt, List.getD_eq_getElem?_getD, List.getElem?_eq_getElem h,
    List.get_eq_getElem]

theorem factorAt_set_self {c : Cube} {i : Nat} (h : i < c.length) (x : Factor) :
    Cube.factorAt (c.set i x) i = x := by
  simp [Cube.factorAt, List.getD_eq_getElem?_getD, List.getElem?_set_self h]

theorem factorAt_set_ne {c : Cube} {i j : Nat} (h : i ≠ j) (x : Factor) :
    Cube.factorAt (c.set i x) j = Cube.factorAt c j := by
  simp [Cube.factorAt, List.getD_eq_getElem?_getD, List.getElem?_set_ne h]

theorem factorAt_mem {c : Cube} {i : Nat} (h : i < c.length) : Cube.factorAt c i ∈ c := by
  rw [factorAt_eq_get h]
  exact List.get_mem c i h

theorem mem_iff_factorAt {c : Cube} {f : Factor} :
    f ∈ c ↔ ∃ j, ∃ _ : j < c.length, Cube.factorAt c j = f := by
  constructor
  · intro hf
    rcases List.mem_iff_get.mp hf with ⟨⟨j, hj⟩, rfl⟩
    exact ⟨j, hj, factorAt_eq_get hj⟩
  · rintro ⟨j, hj, rfl⟩
    rw [factorAt_eq_get hj]
    exact List.get_mem c j hj

theorem evalFrom_eq_true_iff (a : Nat → Bool) :
    ∀ (c : Cube) (i : Nat),
      evalFrom a i c = true ↔ ∀ j, j < c.length → (c.factorAt j).eval (a (i + j)) = true := by
  intro c
  induction c with
  | nil =>
    intro i
    simp [evalFrom]
  | cons f fs ih =>
    intro i
    simp only [evalFrom, Bool.and_eq_true, ih (i + 1), List.length_cons]
    constructor
    · rintro ⟨h0, hrest⟩ j hj
      cases j with
      | zero => simpa [factorAt] using h0
      | succ j =>
        have e : i + (j + 1) = (i + 1) + j := by omega
        rw [e]
        have hj2 : j < fs.length := by omega
        simpa [factorAt, List.getD_cons_succ] using hrest j hj2
    · intro hAll
      refine ⟨?_, ?_⟩
      · simpa [factorAt] using hAll 0 (by omega)
      · intro j hj
        have e : (i + 1) + j = i + (j + 1) := by omega
        rw [e]
        simpa [factorAt, List.getD_cons_succ] using hAll (j + 1) (by omega)

theorem eval_eq_true_iff {c : Cube} {a : Nat → Bool} :
    c.eval a = true ↔ ∀ j, j < c.length → (c.factorAt j).eval (a j) = true := by
  simpa using evalFrom_eq_true_iff a c 0

theorem is_zero_eq_true_iff {c : Cube} : c.is_zero = true ↔ ∃ f ∈ c, f = Factor.zero := by
  simp [is_zero]

theorem is_zero_eq_false_iff {c : Cube} : c.is_zero = false ↔ ∀ f ∈ c, f ≠ Factor.zero := by
  rw [← Bool.not_eq_true, is_zero_eq_true_iff]
  push_neg
  rfl

theorem is_tautology_eq_true_iff {c : Cube} :
    c.is_tautology = true ↔ ∀ f ∈ c, f = Factor.one := by
  simp [is_tautology]

theorem eval_of_is_zero {c : Cube} (h : c.is_zero = true) (a : Nat → Bool) :
    c.eval a = false := by
  rcases is_zero_eq_true_iff.mp h with ⟨f, hf, rfl⟩
  rcases mem_iff_factorAt.mp hf with ⟨j, hj, hAt⟩
  cases hE : c.eval a with
  | false => rfl
  | true =>
    exfalso
    have := eval_eq_true_iff.mp hE j hj
    rw [hAt, Factor.eval_zero] at this
    exact Bool.false_ne_true this

theorem eval_of_is_tautology {c : Cube} (h : c.is_tautology = true) (a : Nat → Bool) :
    c.eval a = true := by
  apply eval_eq_true_iff.mpr
  intro j hj
  have : c.factorAt j = Factor.one := is_tautology_eq_true_iff.mp h _ (factorAt_mem hj)
  rw [this, Factor.eval_one]

theorem length_ones (n : Nat) : (ones n).length = n := List.length_replicate n _

theorem factorAt_ones {n i : Nat} (h : i < n) : (ones n).factorAt i = Factor.one := by
  have h2 : i < (ones n).length := by rwa [length_ones]
  rw [factorAt_eq_get h2]
  simp [ones]

theorem is_tautology_ones (n : Nat) : (ones n).is_tautology = true := by
  apply is_tautology_eq_true_iff.mpr
  intro f hf
  exact (List.eq_of_mem_replicate hf)

theorem is_zero_ones (n : Nat) : (ones n).is_zero = false := by
  apply is_zero_eq_false_iff.mpr
  intro f hf
  rw [List.eq_of_mem_replicate hf]
  decide

theorem eval_ones (n : Nat) (a : Nat → Bool) : (ones n).eval a = true := by
  exact eval_of_is_tautology (is_tautology_ones n) a

end Cube

end URP

namespace URP

namespace Cube

theorem positive_cofactor_eval (c : Cube) (i : Nat) (a : Nat → Bool) :
    (c.positive_cofactor i).eval a = c.eval (Function.update a i true) := by
  apply bool_eq_of_iff
  rw [eval_eq_true_iff, eval_eq_true_iff]
  simp only [positive_cofactor, List.length_set]
  have key : ∀ j, j < c.length →
      ((Cube.factorAt (c.set i (Factor.positive_cofactor (Cube.factorAt c i))) j).eval (a j)
        = (Cube.factorAt c j).eval (Function.update a i true j)) := by
    intro j hj
    by_cases hij : i = j
    · subst hij
      rw [factorAt_set_self hj, Function.update_same, Factor.eval_positive_cofactor]
    · rw [factorAt_set_ne hij, Function.update_noteq (Ne.symm hij)]
  constructor
  · intro h j hj
    rw [← key j hj]
    exact h j hj
  · intro h j hj
    rw [key j hj]
    exact h j hj

theorem negative_cofactor_eval (c : Cube) (i : Nat) (a : Nat → Bool) :
    (c.negative_cofactor i).eval a = c.eval (Function.update a i false) := by
  apply bool_eq_of_iff
  rw [eval_eq_true_iff, eval_eq_true_iff]
  simp only [negative_cofactor, List.length_set]
  have key : ∀ j, j < c.length →
      ((Cube.factorAt (c.set i (Factor.negative_cofactor (Cube.factorAt c i))) j).eval (a j)
        = (Cube.factorAt c j).eval (Function.update a i false j)) := by
    intro j hj
    by_cases hij : i = j
    · subst hij
      rw [factorAt_set_self hj, Function.update_same, Factor.eval_negative_cofactor]
    · rw [factorAt_set_ne hij, Function.update_noteq (Ne.symm hij)]
  constructor
  · intro h j hj
    rw [← key j hj]
    exact h j hj
  · intro h j hj
    rw [key j hj]
    exact h j hj

theorem bool_and_eval (v : BooleanVariable) (c : Cube) (a : Nat → Bool)
    (h : v.idx < c.length) :
    (Cube.bool_and v c).eval a = (v.pol.eval (a v.idx) && c.eval a) := by
  apply bool_eq_of_iff
  rw [Bool.and_eq_true, eval_eq_true_iff, eval_eq_true_iff]
  simp only [Cube.bool_and, List.length_set]
  constructor
  · intro hAll
    have hi := hAll v.idx h
    rw [factorAt_set_self h, Factor.eval_bool_and, Bool.and_eq_true] at hi
    refine ⟨hi.1, ?_⟩
    intro j hj
    by_cases hij : v.idx = j
    · subst hij
      exact hi.2
    · have := hAll j hj
      rwa [factorAt_set_ne hij] at this
  · rintro ⟨hp, hAll⟩ j hj
    by_cases hij : v.idx = j
    · subst hij
      rw [factorAt_set_self h, Factor.eval_bool_and, Bool.and_eq_true]
      exact ⟨hp, hAll v.idx h⟩
    · rw [factorAt_set_ne hij]
      exact hAll j hj

theorem length_bool_and (v : BooleanVariable) (c : Cube) :
    (Cube.bool_and v c).length = c.length := List.length_set c v.idx _

theorem length_positive_cofactor (c : Cube) (i : Nat) :
    (c.positive_cofactor i).length = c.length := List.length_set c i _

theorem length_negative_cofactor (c : Cube) (i : Nat) :
    (c.negative_cofactor i).length = c.length := List.length_set c i _

theorem set_ones_eq_bool_and {n i : Nat} (h : i < n) (g : Factor) :
    Cube.bool_and ⟨i, g⟩ (ones n) = (ones n).set i g := by
  have : Cube.factorAt (ones n) i = Factor.one := factorAt_ones h
  simp [Cube.bool_and, this, Factor.bool_and_one]

theorem is_zero_set_ones {n i : Nat} (h : i < n) (g : Factor) :
    Cube.is_zero ((ones n).set i g) = decide (g = Factor.zero) := by
  apply bool_eq_of_iff
  rw [is_zero_eq_true_iff]
  have hlen : ((ones n).set i g).length = n := by
    rw [List.length_set, length_ones]
  constructor
  · rintro ⟨f, hf, rfl⟩
    rcases mem_iff_factorAt.mp hf with ⟨j, hj, hAt⟩
    by_cases hij : i = j
    · subst hij
      have hi2 : i < (ones n).length := by rwa [length_ones]
      rw [factorAt_set_self hi2 g] at hAt
      simp [hAt]
    · rw [factorAt_set_ne hij] at hAt
      have : Cube.factorAt (ones n) j = Factor.one := by
        apply factorAt_ones
        omega
      rw [this] at hAt
      exact absurd hAt (by decide)
  · intro hg
    have hg2 : g = Factor.zero := by simpa using hg
    subst hg2
    have hi2 : i < (ones n).length := by rwa [length_ones]
    refine ⟨Factor.zero, ?_, rfl⟩
    have hlt : i < ((ones n).set i Factor.zero).length := by
      rw [List.length_set, length_ones]
      exact h
    have hmem := factorAt_mem hlt
    rwa [factorAt_set_self hi2 Factor.zero] at hmem

theorem eval_set_ones {n i : Nat} (h : i < n) (g : Factor) (a : Nat → Bool) :
    Cube.eval ((ones n).set i g) a = g.eval (a i) := by
  apply bool_eq_of_iff
  rw [eval_eq_true_iff]
  have hlen : ((ones n).set i g).length = n := by
    rw [List.length_set, length_ones]
  have hi2 : i < (ones n).length := by rwa [length_ones]
  constructor
  · intro hAll
    have := hAll i (by omega)
    rwa [factorAt_set_self hi2] at this
  · intro hg j hj
    by_cases hij : i = j
    · subst hij
      rwa [factorAt_set_self hi2]
    · rw [factorAt_set_ne hij]
      have : Cube.factorAt (ones n) j = Factor.one := by
        apply factorAt_ones
        omega
      rw [this, Factor.eval_one]

theorem exists_falsifier {c : Cube} (hz : c.is_zero = false) (ht : c.is_tautology = false) :
    c.eval (fun j => decide (Cube.factorAt c j = Factor.neg)) = false := by
  have hnt : ∃ f ∈ c, f ≠ Factor.one := by
    by_contra hAll
    push_neg at hAll
    rw [is_tautology_eq_true_iff.mpr hAll] at ht
    cases ht
  rcases hnt with ⟨f, hf, hfne⟩
  have hfz : f ≠ Factor.zero := is_zero_eq_false_iff.mp hz f hf
  rcases mem_iff_factorAt.mp hf with ⟨j, hj, hAt⟩
  cases hE : c.eval (fun j => decide (Cube.factorAt c j = Factor.neg)) with
  | false => rfl
  | true =>
    exfalso
    have hterm := eval_eq_true_iff.mp hE j hj
    rw [hAt] at hterm
    rcases Factor.cases_all f with h1 | h1 | h1 | h1
    · rw [h1] at hterm
      exact absurd hterm (by decide)
    · rw [h1] at hterm
      exact absurd hterm (by decide)
    · exact hfne h1
    · exact hfz h1

end Cube

end URP

namespace URP

/-- any respects pointwise equal predicates. -/
theorem list_any_ext {α : Type} {p q : α → Bool} :
    ∀ (l : List α), (∀ x ∈ l, p x = q x) → l.any p = l.any q := by
  intro l
  induction l with
  | nil => intro _; rfl
  | cons x xs ih =>
    intro h
    simp only [List.any_cons]
    rw [h x (List.mem_cons_self x xs), ih (fun y hy => h y (List.mem_cons_of_mem x hy))]

/-- any of a pointwise conjunction with a fixed left side. -/
theorem list_any_and_left {α : Type} (A : Bool) (p : α → Bool) (l : List α) :
    l.any (fun c => A && p c) = (A && l.any p) := by
  cases A <;> simp

namespace CubeList

theorem eval_true_iff_exists {F : CubeList} {a : Nat → Bool} :
    F.eval a = true ↔ ∃ c ∈ F.list, c.eval a = true := by
  simp [eval]

theorem contains_eq_true_iff {F : CubeList} {c : Cube} : F.contains c = true ↔ c ∈ F.list := by
  simp [contains]

theorem is_zero_true_iff {F : CubeList} :
    F.is_zero = true ↔ (F.size = 0 ∨ ∀ c ∈ F.list, c.is_zero = true) := by
  simp [is_zero]

/-- Dropping cubes that are zero does not change the disjunction. -/
theorem any_eval_filter_nonzero (l : List Cube) (a : Nat → Bool) :
    ((l.filter (fun c => !c.is_zero)).any (fun c => c.eval a)) = l.any (fun c => c.eval a) := by
  induction l with
  | nil => rfl
  | cons c l ih =>
    by_cases h : c.is_zero = true
    · simp [List.filter_cons, h, Cube.eval_of_is_zero h a, ih]
    · have h2 : c.is_zero = false := by
        cases hc : c.is_zero
        · rfl
        · exact absurd hc h
      simp [List.filter_cons, h2, ih]

theorem positive_cofactor_eval_fn (F : CubeList) (i : Nat) (a : Nat → Bool) :
    (F.positive_cofactor i).eval a = F.eval (Function.update a i true) := by
  show ((F.list.map (fun c => c.positive_cofactor i)).filter (fun c => !c.is_zero)).any
      (fun c => c.eval a) = _
  rw [any_eval_filter_nonzero, List.any_map]
  exact list_any_ext F.list (fun c _ => Cube.positive_cofactor_eval c i a)

theorem negative_cofactor_eval_fn (F : CubeList) (i : Nat) (a : Nat → Bool) :
    (F.negative_cofactor i).eval a = F.eval (Function.update a i false) := by
  show ((F.list.map (fun c => c.negative_cofactor i)).filter (fun c => !c.is_zero)).any
      (fun c => c.eval a) = _
  rw [any_eval_filter_nonzero, List.any_map]
  exact list_any_ext F.list (fun c _ => Cube.negative_cofactor_eval c i a)

theorem bool_and_eval_fn (v : BooleanVariable) (F : CubeList) (a : Nat → Bool)
    (h : ∀ c ∈ F.list, v.idx < c.length) :
    (CubeList.bool_and v F).eval a = (v.pol.eval (a v.idx) && F.eval a) := by
  show ((F.list.map (fun c => Cube.bool_and v c)).filter (fun c => !c.is_zero)).any
      (fun c => c.eval a) = _
  rw [any_eval_filter_nonzero, List.any_map]
  have := list_any_ext F.list (q := fun c => v.pol.eval (a v.idx) && c.eval a)
    (fun c hc => Cube.bool_and_eval v c a (h c hc))
  rw [Function.comp_def, this, list_any_and_left]
  rfl

theorem bool_or_eval (F G : CubeList) (a : Nat → Bool) :
    (F.bool_or G).eval a = (F.eval a || G.eval a) := by
  apply bool_eq_of_iff
  rw [Bool.or_eq_true, eval_true_iff_exists, eval_true_iff_exists, eval_true_iff_exists]
  simp only [bool_or, List.mem_append]
  constructor
  · rintro ⟨c, hc | hc, hEval⟩
    · exact Or.inl ⟨c, hc, hEval⟩
    · exact Or.inr ⟨c, (List.mem_filter.mp hc).1, hEval⟩
  · rintro (⟨c, hc, hEval⟩ | ⟨c, hc, hEval⟩)
    · exact ⟨c, Or.inl hc, hEval⟩
    · by_cases hmem : F.contains c = true
      · exact ⟨c, Or.inl (contains_eq_true_iff.mp hmem), hEval⟩
      · refine ⟨c, Or.inr (List.mem_filter.mpr ⟨hc, ?_⟩), hEval⟩
        simp [hmem]

end CubeList

namespace Cube

theorem bool_not_go_any_eval (a : Nat → Bool) :
    ∀ (fs : List Factor) (i n : Nat), i + fs.length ≤ n →
      ((Cube.bool_not_go n i fs).any (fun k => k.eval a)) = !(Cube.evalFrom a i fs) := by
  intro fs
  induction fs with
  | nil =>
    intro i n _
    simp [Cube.bool_not_go, Cube.evalFrom]
  | cons f fs ih =>
    intro i n h
    have hi : i < n := by
      simp only [List.length_cons] at h
      omega
    have hrec : (i + 1) + fs.length ≤ n := by
      simp only [List.length_cons] at h
      omega
    rw [Cube.bool_not_go]
    rw [set_ones_eq_bool_and hi (Factor.bool_not f)]
    rw [is_zero_set_ones hi (Factor.bool_not f)]
    by_cases hf : f = Factor.one
    · have hz : decide (Factor.bool_not f = Factor.zero) = true := by
        rw [(Factor.bool_not_eq_zero_iff f).mpr hf]
        decide
      rw [hz]
      simp only [if_true]
      rw [ih (i + 1) n hrec]
      rw [Cube.evalFrom, hf, Factor.eval_one, Bool.true_and]
    · have hz : decide (Factor.bool_not f = Factor.zero) = false := by
        have hne : Factor.bool_not f ≠ Factor.zero := by
          intro hcontra
          exact hf ((Factor.bool_not_eq_zero_iff f).mp hcontra)
        simp [hne]
      rw [hz]
      rw [if_neg (by decide : ¬(false = true))]
      rw [List.any_cons]
      rw [ih (i + 1) n hrec]
      rw [eval_set_ones hi (Factor.bool_not f) a, Factor.eval_bool_not]
      rw [Cube.evalFrom, Bool.not_and]

theorem bool_not_eval (c : Cube) (a : Nat → Bool) :
    (Cube.bool_not c).eval a = !(c.eval a) := by
  show (Cube.bool_not_go c.length 0 c).any (fun k => k.eval a) = !(Cube.evalFrom a 0 c)
  exact bool_not_go_any_eval a c 0 c.length (by simp)

end Cube

end URP

namespace URP

theorem headD_mem {l : List Nat} (h : l ≠ []) : l.headD 0 ∈ l := by
  cases l with
  | nil => exact absurd rfl h
  | cons x xs => simp

namespace MetaFunction

theorem foldl_max_acc_le (attr : Nat → Nat) :
    ∀ (l : List Nat) (acc : Nat), acc ≤ l.foldl (fun m y => max m (attr y)) acc := by
  intro l
  induction l with
  | nil => intro acc; exact Nat.le_refl acc
  | cons x xs ih =>
    intro acc
    calc acc ≤ max acc (attr x) := Nat.le_max_left _ _
    _ ≤ xs.foldl (fun m y => max m (attr y)) (max acc (attr x)) := ih _

theorem foldl_max_mem_le (attr : Nat → Nat) :
    ∀ (l : List Nat) (acc x : Nat), x ∈ l →
      attr x ≤ l.foldl (fun m y => max m (attr y)) acc := by
  intro l
  induction l with
  | nil => intro acc x hx; exact absurd hx (List.not_mem_nil x)
  | cons y ys ih =>
    intro acc x hx
    rcases List.mem_cons.mp hx with rfl | hx2
    · calc attr x ≤ max acc (attr x) := Nat.le_max_right _ _
      _ ≤ ys.foldl (fun m y => max m (attr y)) (max acc (attr x)) := foldl_max_acc_le attr ys _
    · exact ih _ x hx2

theorem foldl_max_achieved (attr : Nat → Nat) :
    ∀ (l : List Nat) (acc : Nat),
      l.foldl (fun m y => max m (attr y)) acc = acc
        ∨ ∃ x ∈ l, l.foldl (fun m y => max m (attr y)) acc = attr x := by
  intro l
  induction l with
  | nil => intro acc; exact Or.inl rfl
  | cons y ys ih =>
    intro acc
    rcases ih (max acc (attr y)) with hEq | ⟨x, hx, hEq⟩
    · rcases max_choice acc (attr y) with hM | hM
      · left
        rw [List.foldl_cons, hEq, hM]
      · right
        exact ⟨y, List.mem_cons_self y ys, by rw [List.foldl_cons, hEq, hM]⟩
    · right
      exact ⟨x, List.mem_cons_of_mem y hx, by rw [List.foldl_cons, hEq]⟩

theorem le_max_of {data : List Nat} {x : Nat} (attr : Nat → Nat) (hx : x ∈ data) :
    attr x ≤ max_of data attr := by
  cases data with
  | nil => exact absurd hx (List.not_mem_nil x)
  | cons y ys =>
    rcases List.mem_cons.mp hx with rfl | hx2
    · exact foldl_max_acc_le attr ys (attr x)
    · exact foldl_max_mem_le attr ys (attr y) x hx2

theorem max_of_achieved {data : List Nat} (attr : Nat → Nat) (h : data ≠ []) :
    ∃ x ∈ data, max_of data attr = attr x := by
  cases data with
  | nil => exact absurd rfl h
  | cons y ys =>
    rcases foldl_max_achieved attr ys (attr y) with hEq | ⟨x, hx, hEq⟩
    · exact ⟨y, List.mem_cons_self y ys, hEq⟩
    · exact ⟨x, List.mem_cons_of_mem y hx, hEq⟩

theorem foldl_min_le_acc (attr : Nat → Nat) :
    ∀ (l : List Nat) (acc : Nat), l.foldl (fun m y => min m (attr y)) acc ≤ acc := by
  intro l
  induction l with
  | nil => intro acc; exact Nat.le_refl acc
  | cons x xs ih =>
    intro acc
    calc xs.foldl (fun m y => min m (attr y)) (min acc (attr x)) ≤ min acc (attr x) := ih _
    _ ≤ acc := Nat.min_le_left _ _

theorem foldl_min_le_mem (attr : Nat → Nat) :
    ∀ (l : List Nat) (acc x : Nat), x ∈ l →
      l.foldl (fun m y => min m (attr y)) acc ≤ attr x := by
  intro l
  induction l with
  | nil => intro acc x hx; exact absurd hx (List.not_mem_nil x)
  | cons y ys ih =>
    intro acc x hx
    rcases List.mem_cons.mp hx with rfl | hx2
    · calc ys.foldl (fun m y => min m (attr y)) (min acc (attr x)) ≤ min acc (attr x) :=
        foldl_min_le_acc attr ys _
      _ ≤ attr x := Nat.min_le_right _ _
    · exact ih _ x hx2

theorem foldl_min_achieved (attr : Nat → Nat) :
    ∀ (l : List Nat) (acc : Nat),
      l.foldl (fun m y => min m (attr y)) acc = acc
        ∨ ∃ x ∈ l, l.foldl (fun m y => min m (attr y)) acc = attr x := by
  intro l
  induction l with
  | nil => intro acc; exact Or.inl rfl
  | cons y ys ih =>
    intro acc
    rcases ih (min acc (attr y)) with hEq | ⟨x, hx, hEq⟩
    · rcases min_choice acc (attr y) with hM | hM
      · left
        rw [List.foldl_cons, hEq, hM]
      · right
        exact ⟨y, List.mem_cons_self y ys, by rw [List.foldl_cons, hEq, hM]⟩
    · right
      exact ⟨x, List.mem_cons_of_mem y hx, by rw [List.foldl_cons, hEq]⟩

theorem min_of_le {data : List Nat} {x : Nat} (attr : Nat → Nat) (hx : x ∈ data) :
    min_of data attr ≤ attr x := by
  cases data with
  | nil => exact absurd hx (List.not_mem_nil x)
  | cons y ys =>
    rcases List.mem_cons.mp hx with rfl | hx2
    · exact foldl_min_le_acc attr ys (attr x)
    · exact foldl_min_le_mem attr ys (attr y) x hx2

theorem min_of_achieved {data : List Nat} (attr : Nat → Nat) (h : data ≠ []) :
    ∃ x ∈ data, min_of data attr = attr x := by
  cases data with
  | nil => exact absurd rfl h
  | cons y ys =>
    rcases foldl_min_achieved attr ys (attr y) with hEq | ⟨x, hx, hEq⟩
    · exact ⟨y, List.mem_cons_self y ys, hEq⟩
    · exact ⟨x, List.mem_cons_of_mem y hx, hEq⟩

theorem min_of_id_mem {data : List Nat} (h : data ≠ []) :
    min_of data (fun i => i) ∈ data := by
  rcases min_of_achieved (fun i => i) h with ⟨x, hx, hEq⟩
  rw [hEq]
  exact hx

theorem most_binate_vars_ne_nil {F : CubeList} (h : binate_vars F ≠ []) :
    most_binate_vars F ≠ [] := by
  rcases max_of_achieved (fun j => MetaVariable.count_terms (metaFactors F j)) h with ⟨x, hx, hEq⟩
  intro hnil
  have : x ∈ most_binate_vars F := by
    apply List.mem_filter.mpr
    exact ⟨hx, by simp [hEq]⟩
  rw [hnil] at this
  exact absurd this (List.not_mem_nil x)

theorem most_balanced_vars_ne_nil {F : CubeList} (h : binate_vars F ≠ []) :
    most_balanced_vars F ≠ [] := by
  have h2 := most_binate_vars_ne_nil h
  rcases min_of_achieved (fun j => MetaVariable.abs_t_minus_c (metaFactors F j)) h2 with ⟨x, hx, hEq⟩
  intro hnil
  have : x ∈ most_balanced_vars F := by
    apply List.mem_filter.mpr
    exact ⟨hx, by simp [hEq]⟩
  rw [hnil] at this
  exact absurd this (List.not_mem_nil x)

theorem most_unate_vars_ne_nil {F : CubeList} (h : unate_vars F ≠ []) :
    most_unate_vars F ≠ [] := by
  rcases max_of_achieved (fun j => MetaVariable.count_terms (metaFactors F j)) h with ⟨x, hx, hEq⟩
  intro hnil
  have : x ∈ most_unate_vars F := by
    apply List.mem_filter.mpr
    exact ⟨hx, by simp [hEq]⟩
  rw [hnil] at this
  exact absurd this (List.not_mem_nil x)

theorem most_binate_subset {F : CubeList} {x : Nat} (h : x ∈ most_binate_vars F) :
    x ∈ binate_vars F := (List.mem_filter.mp h).1

theorem most_balanced_subset {F : CubeList} {x : Nat} (h : x ∈ most_balanced_vars F) :
    x ∈ binate_vars F := most_binate_subset (List.mem_filter.mp h).1

theorem most_unate_subset {F : CubeList} {x : Nat} (h : x ∈ most_unate_vars F) :
    x ∈ unate_vars F := (List.mem_filter.mp h).1

theorem choose_mem (F : CubeList)
    (h : binate_vars F ≠ [] ∨ unate_vars F ≠ []) :
    choose_recursion_variable F ∈ binate_vars F
      ∨ choose_recursion_variable F ∈ unate_vars F := by
  rw [choose_recursion_variable]
  by_cases hb : (binate_vars F).length > 0
  · have hbne : binate_vars F ≠ [] := by
      intro hnil
      rw [hnil] at hb
      exact absurd hb (by simp)
    rw [if_pos hb]
    by_cases h1 : (most_binate_vars F).length = 1
    · rw [if_pos h1]
      exact Or.inl (most_binate_subset (headD_mem (most_binate_vars_ne_nil hbne)))
    · rw [if_neg h1]
      by_cases h2 : (most_balanced_vars F).length = 1
      · rw [if_pos h2]
        exact Or.inl (most_balanced_subset (headD_mem (most_balanced_vars_ne_nil hbne)))
      · rw [if_neg h2]
        exact Or.inl (most_balanced_subset (min_of_id_mem (most_balanced_vars_ne_nil hbne)))
  · have hbnil : binate_vars F = [] := by
      apply List.length_eq_zero.mp
      omega
    have hune : unate_vars F ≠ [] := by
      rcases h with h | h
      · exact absurd hbnil h
      · exact h
    rw [if_neg hb]
    by_cases h1 : (most_unate_vars F).length = 1
    · rw [if_pos h1]
      exact Or.inr (most_unate_subset (headD_mem (most_unate_vars_ne_nil hune)))
    · rw [if_neg h1]
      exact Or.inr (most_unate_subset (min_of_id_mem (most_unate_vars_ne_nil hune)))

end MetaFunction

end URP

namespace URP

namespace CubeList

theorem wf_def {F : CubeList} :
    F.wf ↔ ∀ c ∈ F.list, c.length = F.dim ∧ c.is_zero = false := Iff.rfl

theorem headD_length {F : CubeList} (h : F.wf) (hne : F.list ≠ []) :
    (F.list.headD []).length = F.dim := by
  cases hl : F.list with
  | nil => exact absurd hl hne
  | cons c cs =>
    have hc : c ∈ F.list := by
      rw [hl]
      exact List.mem_cons_self c cs
    have := (h c hc).1
    simpa using this

theorem is_zero_eq_false_of_wf {F : CubeList} (h : F.wf) (hne : F.list ≠ []) :
    F.is_zero = false := by
  cases hl : F.list with
  | nil => exact absurd hl hne
  | cons c cs =>
    have hc : c ∈ F.list := by
      rw [hl]
      exact List.mem_cons_self c cs
    have hcz := (h c hc).2
    cases hz : F.is_zero with
    | false => rfl
    | true =>
      exfalso
      rcases is_zero_true_iff.mp hz with hs | hall
      · rw [size, hl] at hs
        exact absurd hs (by simp)
      · rw [hall c hc] at hcz
        cases hcz

theorem mem_positive_cofactor_list {F : CubeList} {i : Nat} {d : Cube} :
    d ∈ (F.positive_cofactor i).list
      ↔ (∃ c ∈ F.list, c.positive_cofactor i = d) ∧ d.is_zero = false := by
  simp only [positive_cofactor, List.mem_filter, List.mem_map, Bool.not_eq_true']

theorem mem_negative_cofactor_list {F : CubeList} {i : Nat} {d : Cube} :
    d ∈ (F.negative_cofactor i).list
      ↔ (∃ c ∈ F.list, c.negative_cofactor i = d) ∧ d.is_zero = false := by
  simp only [negative_cofactor, List.mem_filter, List.mem_map, Bool.not_eq_true']

theorem mem_bool_and_list {v : BooleanVariable} {F : CubeList} {d : Cube} :
    d ∈ (CubeList.bool_and v F).list
      ↔ (∃ c ∈ F.list, Cube.bool_and v c = d) ∧ d.is_zero = false := by
  simp only [bool_and, List.mem_filter, List.mem_map, Bool.not_eq_true']

theorem wf_positive_cofactor {F : CubeList} (h : F.wf) (i : Nat) :
    (F.positive_cofactor i).wf := by
  intro d hd
  rcases mem_positive_cofactor_list.mp hd with ⟨⟨c, hc, rfl⟩, hnz⟩
  refine ⟨?_, hnz⟩
  show (c.positive_cofactor i).length = F.dim
  rw [Cube.length_positive_cofactor]
  exact (h c hc).1

theorem wf_negative_cofactor {F : CubeList} (h : F.wf) (i : Nat) :
    (F.negative_cofactor i).wf := by
  intro d hd
  rcases mem_negative_cofactor_list.mp hd with ⟨⟨c, hc, rfl⟩, hnz⟩
  refine ⟨?_, hnz⟩
  show (c.negative_cofactor i).length = F.dim
  rw [Cube.length_negative_cofactor]
  exact (h c hc).1

theorem wf_bool_and {v : BooleanVariable} {F : CubeList} (h : F.wf) :
    (CubeList.bool_and v F).wf := by
  intro d hd
  rcases mem_bool_and_list.mp hd with ⟨⟨c, hc, rfl⟩, hnz⟩
  refine ⟨?_, hnz⟩
  show (Cube.bool_and v c).length = F.dim
  rw [Cube.length_bool_and]
  exact (h c hc).1

theorem wf_bool_or {F G : CubeList} (hF : F.wf) (hG : G.wf) (hdim : G.dim = F.dim) :
    (F.bool_or G).wf := by
  intro d hd
  rcases List.mem_append.mp hd with hd | hd
  · exact hF d hd
  · have hdG : d ∈ G.list := (List.mem_filter.mp hd).1
    refine ⟨?_, (hG d hdG).2⟩
    show d.length = F.dim
    rw [(hG d hdG).1, hdim]

end CubeList

namespace Cube

theorem bool_not_go_mem {n : Nat} :
    ∀ (fs : List Factor) (i : Nat) (d : Cube), d ∈ Cube.bool_not_go n i fs →
      (∃ j g, d = (Cube.ones n).set j g) ∧ d.is_zero = false := by
  intro fs
  induction fs with
  | nil =>
    intro i d hd
    exact absurd hd (List.not_mem_nil d)
  | cons f fs ih =>
    intro i d hd
    rw [Cube.bool_not_go] at hd
    by_cases hz : (Cube.bool_and ⟨i, Factor.bool_not f⟩ (Cube.ones n)).is_zero = true
    · rw [if_pos hz] at hd
      exact ih (i + 1) d hd
    · rw [if_neg hz] at hd
      rcases List.mem_cons.mp hd with rfl | hd2
      · constructor
        · refine ⟨i, Factor.bool_and (Factor.bool_not f) (Cube.factorAt (Cube.ones n) i), rfl⟩
        · cases hzz : Cube.is_zero (Cube.bool_and ⟨i, Factor.bool_not f⟩ (Cube.ones n)) with
          | false => rfl
          | true => exact absurd hzz hz
      · exact ih (i + 1) d hd2

theorem wf_cube_bool_not (c : Cube) : (Cube.bool_not c).wf := by
  intro d hd
  have hd2 : d ∈ Cube.bool_not_go c.length 0 c := hd
  rcases bool_not_go_mem c 0 d hd2 with ⟨⟨j, g, rfl⟩, hnz⟩
  refine ⟨?_, hnz⟩
  show ((Cube.ones c.length).set j g).length = c.length
  rw [List.length_set, Cube.length_ones]

end Cube

end URP

namespace URP

theorem metaFactors_eq_column {F : CubeList} (h : F.wf) (hne : F.list ≠ []) {i : Nat}
    (hi : i < F.N) : metaFactors F i = column F i := by
  have hn : (F.list.headD []).length = F.dim := CubeList.headD_length h hne
  simp only [metaFactors, column]
  rw [if_neg]
  rw [hn]
  have : i < F.dim := hi
  omega

theorem has_of_binate {ms : List Factor} (h : MetaVariable.is_binate_in_fn ms = true) :
    MetaVariable.has_pos ms = true ∨ MetaVariable.has_neg ms = true := by
  cases hp : MetaVariable.has_pos ms <;> cases hn : MetaVariable.has_neg ms <;>
    simp_all [MetaVariable.is_binate_in_fn]

theorem has_of_unate {ms : List Factor} (h : MetaVariable.is_unate_in_fn ms = true) :
    MetaVariable.has_pos ms = true ∨ MetaVariable.has_neg ms = true := by
  cases hp : MetaVariable.has_pos ms <;> cases hn : MetaVariable.has_neg ms <;>
    simp_all [MetaVariable.is_unate_in_fn]

theorem binate_or_unate_of_has {ms : List Factor}
    (h : MetaVariable.has_pos ms = true ∨ MetaVariable.has_neg ms = true) :
    MetaVariable.is_binate_in_fn ms = true ∨ MetaVariable.is_unate_in_fn ms = true := by
  cases hp : MetaVariable.has_pos ms <;> cases hn : MetaVariable.has_neg ms <;>
    simp_all [MetaVariable.is_binate_in_fn, MetaVariable.is_unate_in_fn]

theorem has_pos_column_iff {F : CubeList} {i : Nat} :
    MetaVariable.has_pos (column F i) = true ↔ ∃ c ∈ F.list, Cube.factorAt c i = Factor.pos := by
  simp [MetaVariable.has_pos, column]

theorem has_neg_column_iff {F : CubeList} {i : Nat} :
    MetaVariable.has_neg (column F i) = true ↔ ∃ c ∈ F.list, Cube.factorAt c i = Factor.neg := by
  simp [MetaVariable.has_neg, column]

theorem any_enum_of_has {F : CubeList} {i : Nat}
    (h : MetaVariable.has_pos (column F i) = true ∨ MetaVariable.has_neg (column F i) = true) :
    F.list.any (fun c => (Cube.factorAt c i).is_enum) = true := by
  rw [List.any_eq_true]
  rcases h with h | h
  · rcases has_pos_column_iff.mp h with ⟨c, hc, hAt⟩
    refine ⟨c, hc, ?_⟩
    rw [hAt]
    decide
  · rcases has_neg_column_iff.mp h with ⟨c, hc, hAt⟩
    refine ⟨c, hc, ?_⟩
    rw [hAt]
    decide

theorem mem_binate_vars {F : CubeList} {i : Nat} :
    i ∈ MetaFunction.binate_vars F
      ↔ i < F.N ∧ MetaVariable.is_binate_in_fn (metaFactors F i) = true := by
  simp [MetaFunction.binate_vars, List.mem_filter, List.mem_range]

theorem mem_unate_vars {F : CubeList} {i : Nat} :
    i ∈ MetaFunction.unate_vars F
      ↔ i < F.N ∧ MetaVariable.is_unate_in_fn (metaFactors F i) = true := by
  simp [MetaFunction.unate_vars, List.mem_filter, List.mem_range]

theorem selection_exists {F : CubeList} (h : F.wf) (hne : F.list ≠ [])
    (hnt : F.list.any Cube.is_tautology = false) :
    MetaFunction.binate_vars F ≠ [] ∨ MetaFunction.unate_vars F ≠ [] := by
  cases hl : F.list with
  | nil => exact absurd hl hne
  | cons c cs =>
    have hc : c ∈ F.list := by
      rw [hl]
      exact List.mem_cons_self c cs
    have hcz := (h c hc).2
    have hclen := (h c hc).1
    have hct : c.is_tautology = false := by
      cases hx : c.is_tautology with
      | false => rfl
      | true =>
        exfalso
        have : F.list.any Cube.is_tautology = true := List.any_eq_true.mpr ⟨c, hc, hx⟩
        rw [this] at hnt
        cases hnt
    have hnall : ∃ f ∈ c, f ≠ Factor.one := by
      by_contra hAll
      push_neg at hAll
      rw [Cube.is_tautology_eq_true_iff.mpr hAll] at hct
      cases hct
    rcases hnall with ⟨f, hf, hfne⟩
    have hfz : f ≠ Factor.zero := Cube.is_zero_eq_false_iff.mp hcz f hf
    rcases Cube.mem_iff_factorAt.mp hf with ⟨j, hj, hAt⟩
    have hjN : j < F.N := by
      have : j < F.dim := by
        rw [← hclen]
        exact hj
      exact this
    have hcol := metaFactors_eq_column h hne hjN
    have hhas : MetaVariable.has_pos (column F j) = true
        ∨ MetaVariable.has_neg (column F j) = true := by
      rcases Factor.cases_all f with h1 | h1 | h1 | h1
      · exact Or.inl (has_pos_column_iff.mpr ⟨c, hc, by rw [hAt, h1]⟩)
      · exact Or.inr (has_neg_column_iff.mpr ⟨c, hc, by rw [hAt, h1]⟩)
      · exact absurd h1 hfne
      · exact absurd h1 hfz
    rcases binate_or_unate_of_has hhas with hb | hu
    · left
      apply List.ne_nil_of_mem (a := j)
      apply mem_binate_vars.mpr
      rw [hcol]
      exact ⟨hjN, hb⟩
    · right
      apply List.ne_nil_of_mem (a := j)
      apply mem_unate_vars.mpr
      rw [hcol]
      exact ⟨hjN, hu⟩

theorem choose_lt_and_enum {F : CubeList} (h : F.wf) (hne : F.list ≠ [])
    (hsel : MetaFunction.binate_vars F ≠ [] ∨ MetaFunction.unate_vars F ≠ []) :
    MetaFunction.choose_recursion_variable F < F.N ∧
      F.list.any (fun c =>
        (Cube.factorAt c (MetaFunction.choose_recursion_variable F)).is_enum) = true := by
  rcases MetaFunction.choose_mem F hsel with hmem | hmem
  · rcases mem_binate_vars.mp hmem with ⟨hlt, hbin⟩
    refine ⟨hlt, ?_⟩
    rw [metaFactors_eq_column h hne hlt] at hbin
    exact any_enum_of_has (has_of_binate hbin)
  · rcases mem_unate_vars.mp hmem with ⟨hlt, huna⟩
    refine ⟨hlt, ?_⟩
    rw [metaFactors_eq_column h hne hlt] at huna
    exact any_enum_of_has (has_of_unate huna)

end URP

namespace URP

theorem countP_le_of {α : Type} (p q : α → Bool) :
    ∀ (l : List α), (∀ x ∈ l, q x = true → p x = true) → l.countP q ≤ l.countP p := by
  intro l
  induction l with
  | nil => intro _; exact Nat.le_refl 0
  | cons x xs ih =>
    intro hpt
    rw [List.countP_cons, List.countP_cons]
    have hrec := ih (fun y hy => hpt y (List.mem_cons_of_mem x hy))
    have hcase : (if q x = true then 1 else 0) ≤ (if p x = true then 1 else 0) := by
      by_cases hqx : q x = true
      · rw [if_pos hqx, if_pos (hpt x (List.mem_cons_self x xs) hqx)]
      · rw [if_neg hqx]
        exact Nat.zero_le _
    omega

theorem countP_lt_of {α : Type} (p q : α → Bool) :
    ∀ (l : List α), (∀ x ∈ l, q x = true → p x = true) →
      ∀ a ∈ l, p a = true → q a = false → l.countP q < l.countP p := by
  intro l
  induction l with
  | nil =>
    intro _ a ha
    exact absurd ha (List.not_mem_nil a)
  | cons x xs ih =>
    intro hpt a ha hpa hqa
    rw [List.countP_cons, List.countP_cons]
    have hmono := countP_le_of p q xs (fun y hy => hpt y (List.mem_cons_of_mem x hy))
    rcases List.mem_cons.mp ha with rfl | ha2
    · rw [hqa, hpa]
      simp only [Bool.false_eq_true, if_false, if_true]
      omega
    · have hrec := ih (fun y hy => hpt y (List.mem_cons_of_mem x hy)) a ha2 hpa hqa
      have hcase : (if q x = true then 1 else 0) ≤ (if p x = true then 1 else 0) := by
        by_cases hqx : q x = true
        · rw [if_pos hqx, if_pos (hpt x (List.mem_cons_self x xs) hqx)]
        · rw [if_neg hqx]
          exact Nat.zero_le _
      omega

namespace Cube

theorem set_survivor_at {c : Cube} {i : Nat} {x : Factor} (hlen : i < c.length)
    (hx : x = Factor.one ∨ x = Factor.zero) (hz : Cube.is_zero (c.set i x) = false) :
    Cube.factorAt (c.set i x) i = Factor.one := by
  rcases hx with rfl | rfl
  · exact factorAt_set_self hlen _
  · exfalso
    have hAt : Cube.factorAt (c.set i Factor.zero) i = Factor.zero := factorAt_set_self hlen _
    have hlen2 : i < (c.set i Factor.zero).length := by
      rw [List.length_set]
      exact hlen
    have hmem := factorAt_mem hlen2
    rw [hAt] at hmem
    have : Cube.is_zero (c.set i Factor.zero) = true := is_zero_eq_true_iff.mpr ⟨_, hmem, rfl⟩
    rw [this] at hz
    cases hz

end Cube

namespace CubeList

theorem pcof_not_enum_at_split {F : CubeList} (h : F.wf) {i : Nat} (hi : i < F.N) :
    ((F.positive_cofactor i).list.any (fun c => (Cube.factorAt c i).is_enum)) = false := by
  cases hq : (F.positive_cofactor i).list.any (fun c => (Cube.factorAt c i).is_enum) with
  | false => rfl
  | true =>
    exfalso
    rcases List.any_eq_true.mp hq with ⟨d, hd, hend⟩
    rcases mem_positive_cofactor_list.mp hd with ⟨⟨c, hc, rfl⟩, hnz⟩
    have hlen : i < c.length := by
      rw [(h c hc).1]
      exact hi
    have hone : Cube.factorAt (c.positive_cofactor i) i = Factor.one := by
      apply Cube.set_survivor_at hlen (Factor.positive_cofactor_cases _)
      exact hnz
    rw [hone] at hend
    exact absurd hend (by decide)

theorem ncof_not_enum_at_split {F : CubeList} (h : F.wf) {i : Nat} (hi : i < F.N) :
    ((F.negative_cofactor i).list.any (fun c => (Cube.factorAt c i).is_enum)) = false := by
  cases hq : (F.negative_cofactor i).list.any (fun c => (Cube.factorAt c i).is_enum) with
  | false => rfl
  | true =>
    exfalso
    rcases List.any_eq_true.mp hq with ⟨d, hd, hend⟩
    rcases mem_negative_cofactor_list.mp hd with ⟨⟨c, hc, rfl⟩, hnz⟩
    have hlen : i < c.length := by
      rw [(h c hc).1]
      exact hi
    have hone : Cube.factorAt (c.negative_cofactor i) i = Factor.one := by
      apply Cube.set_survivor_at hlen (Factor.negative_cofactor_cases _)
      exact hnz
    rw [hone] at hend
    exact absurd hend (by decide)

theorem pcof_enum_subset {F : CubeList} (h : F.wf) {i : Nat} (hi : i < F.N) :
    ∀ j ∈ List.range F.N,
      ((F.positive_cofactor i).list.any (fun c => (Cube.factorAt c j).is_enum)) = true →
        (F.list.any (fun c => (Cube.factorAt c j).is_enum)) = true := by
  intro j _ hq
  rcases List.any_eq_true.mp hq with ⟨d, hd, hend⟩
  rcases mem_positive_cofactor_list.mp hd with ⟨⟨c, hc, rfl⟩, hnz⟩
  by_cases hij : i = j
  · exfalso
    subst hij
    have hlen : i < c.length := by
      rw [(h c hc).1]
      exact hi
    have hone : Cube.factorAt (c.positive_cofactor i) i = Factor.one := by
      apply Cube.set_survivor_at hlen (Factor.positive_cofactor_cases _)
      exact hnz
    rw [hone] at hend
    exact absurd hend (by decide)
  · apply List.any_eq_true.mpr
    refine ⟨c, hc, ?_⟩
    simp only [Cube.positive_cofactor] at hend
    rwa [Cube.factorAt_set_ne hij] at hend

theorem ncof_enum_subset {F : CubeList} (h : F.wf) {i : Nat} (hi : i < F.N) :
    ∀ j ∈ List.range F.N,
      ((F.negative_cofactor i).list.any (fun c => (Cube.factorAt c j).is_enum)) = true →
        (F.list.any (fun c => (Cube.factorAt c j).is_enum)) = true := by
  intro j _ hq
  rcases List.any_eq_true.mp hq with ⟨d, hd, hend⟩
  rcases mem_negative_cofactor_list.mp hd with ⟨⟨c, hc, rfl⟩, hnz⟩
  by_cases hij : i = j
  · exfalso
    subst hij
    have hlen : i < c.length := by
      rw [(h c hc).1]
      exact hi
    have hone : Cube.factorAt (c.negative_cofactor i) i = Factor.one := by
      apply Cube.set_survivor_at hlen (Factor.negative_cofactor_cases _)
      exact hnz
    rw [hone] at hend
    exact absurd hend (by decide)
  · apply List.any_eq_true.mpr
    refine ⟨c, hc, ?_⟩
    simp only [Cube.negative_cofactor] at hend
    rwa [Cube.factorAt_set_ne hij] at hend

theorem enumCount_positive_cofactor_lt {F : CubeList} (h : F.wf) {i : Nat} (hi : i < F.N)
    (hEnum : F.list.any (fun c => (Cube.factorAt c i).is_enum) = true) :
    (F.positive_cofactor i).enumCount < F.enumCount := by
  show (((List.range F.N).filter
      (fun j => (F.positive_cofactor i).list.any (fun c => (Cube.factorAt c j).is_enum))).length
    < ((List.range F.N).filter
      (fun j => F.list.any (fun c => (Cube.factorAt c j).is_enum))).length)
  rw [← List.countP_eq_length_filter, ← List.countP_eq_length_filter]
  exact countP_lt_of _ _ (List.range F.N) (pcof_enum_subset h hi) i (List.mem_range.mpr hi)
    hEnum (pcof_not_enum_at_split h hi)

theorem enumCount_negative_cofactor_lt {F : CubeList} (h : F.wf) {i : Nat} (hi : i < F.N)
    (hEnum : F.list.any (fun c => (Cube.factorAt c i).is_enum) = true) :
    (F.negative_cofactor i).enumCount < F.enumCount := by
  show (((List.range F.N).filter
      (fun j => (F.negative_cofactor i).list.any (fun c => (Cube.factorAt c j).is_enum))).length
    < ((List.range F.N).filter
      (fun j => F.list.any (fun c => (Cube.factorAt c j).is_enum))).length)
  rw [← List.countP_eq_length_filter, ← List.countP_eq_length_filter]
  exact countP_lt_of _ _ (List.range F.N) (ncof_enum_subset h hi) i (List.mem_range.mpr hi)
    hEnum (ncof_not_enum_at_split h hi)

theorem enumCount_le_N (F : CubeList) : F.enumCount ≤ F.N := by
  show ((List.range F.N).filter _).length ≤ F.N
  calc ((List.range F.N).filter _).length ≤ (List.range F.N).length :=
    List.length_filter_le _ _
  _ = F.N := List.length_range F.N

end CubeList

end URP

namespace URP

namespace CubeList

theorem ne_nil_of_is_zero_false {F : CubeList} (h : F.is_zero = false) : F.list ≠ [] := by
  intro hnil
  have : F.is_zero = true := by
    rw [is_zero]
    have : F.size = 0 := by
      rw [size, hnil]
      rfl
    simp [this]
  rw [this] at h
  cases h

theorem list_eq_nil_of_wf_is_zero {F : CubeList} (hwf : F.wf) (h : F.is_zero = true) :
    F.list = [] := by
  cases hl : F.list with
  | nil => rfl
  | cons c cs =>
    exfalso
    have hc : c ∈ F.list := by
      rw [hl]
      exact List.mem_cons_self c cs
    rcases is_zero_true_iff.mp h with hs | hall
    · rw [size, hl] at hs
      exact absurd hs (by simp)
    · have := hall c hc
      rw [(hwf c hc).2] at this
      cases this

theorem any_taut_eq_false_of_is_zero {F : CubeList} (h : F.is_zero = true) :
    F.list.any Cube.is_tautology = false := by
  cases hA : F.list.any Cube.is_tautology with
  | false => rfl
  | true =>
    exfalso
    rcases List.any_eq_true.mp hA with ⟨c, hc, hct⟩
    rcases is_zero_true_iff.mp h with hs | hall
    · rw [size, List.length_eq_zero] at hs
      rw [hs] at hc
      exact absurd hc (List.not_mem_nil c)
    · rcases Cube.is_zero_eq_true_iff.mp (hall c hc) with ⟨f, hf, hfz⟩
      have := Cube.is_tautology_eq_true_iff.mp hct f hf
      rw [this] at hfz
      exact absurd hfz (by decide)

/-- Sufficient fuel: the tautology recursion completes within enumCount
    nested splits on every well-formed input. -/
theorem taut_fuel_isSome :
    ∀ (fuel : Nat) (F : CubeList), F.wf → F.enumCount < fuel →
      (is_tautologyF fuel F).isSome = true := by
  intro fuel
  induction fuel with
  | zero =>
    intro F _ h
    omega
  | succ fuel ih =>
    intro F hwf hcnt
    simp only [is_tautologyF]
    by_cases hA : F.list.any Cube.is_tautology = true
    · rw [if_pos hA]
      rfl
    · rw [if_neg hA]
      by_cases hz : F.is_zero = true
      · rw [if_pos hz]
        rfl
      · rw [if_neg hz]
        by_cases h1 : F.size = 1
        · rw [if_pos h1]
          rfl
        · rw [if_neg h1]
          have hzf : F.is_zero = false := by
            cases hx : F.is_zero
            · rfl
            · exact absurd hx hz
          have hne : F.list ≠ [] := ne_nil_of_is_zero_false hzf
          have hAf : F.list.any Cube.is_tautology = false := by
            cases hx : F.list.any Cube.is_tautology
            · rfl
            · exact absurd hx hA
          have hsel := selection_exists hwf hne hAf
          obtain ⟨hlt, hEnum⟩ := choose_lt_and_enum hwf hne hsel
          have hp := ih (F.positive_cofactor (MetaFunction.choose_recursion_variable F))
            (wf_positive_cofactor hwf _)
            (by have := enumCount_positive_cofactor_lt hwf hlt hEnum; omega)
          have hn := ih (F.negative_cofactor (MetaFunction.choose_recursion_variable F))
            (wf_negative_cofactor hwf _)
            (by have := enumCount_negative_cofactor_lt hwf hlt hEnum; omega)
          rcases Option.isSome_iff_exists.mp hp with ⟨x, hx⟩
          rcases Option.isSome_iff_exists.mp hn with ⟨y, hy⟩
          rw [hx, hy]
          rfl

/-- The result does not depend on the fuel once the fuel covers the
    recursion depth. -/
theorem taut_fuel_eq :
    ∀ (fuel1 fuel2 : Nat) (F : CubeList), F.wf → F.enumCount < fuel1 →
      F.enumCount < fuel2 → is_tautologyF fuel1 F = is_tautologyF fuel2 F := by
  intro fuel1
  induction fuel1 with
  | zero =>
    intro fuel2 F _ h
    omega
  | succ fuel1 ih =>
    intro fuel2 F hwf h1 h2
    cases fuel2 with
    | zero => omega
    | succ fuel2 =>
      simp only [is_tautologyF]
      by_cases hA : F.list.any Cube.is_tautology = true
      · rw [if_pos hA, if_pos hA]
      · rw [if_neg hA, if_neg hA]
        by_cases hz : F.is_zero = true
        · rw [if_pos hz, if_pos hz]
        · rw [if_neg hz, if_neg hz]
          by_cases hs1 : F.size = 1
          · rw [if_pos hs1, if_pos hs1]
          · rw [if_neg hs1, if_neg hs1]
            have hzf : F.is_zero = false := by
              cases hx : F.is_zero
              · rfl
              · exact absurd hx hz
            have hne : F.list ≠ [] := ne_nil_of_is_zero_false hzf
            have hAf : F.list.any Cube.is_tautology = false := by
              cases hx : F.list.any Cube.is_tautology
              · rfl
              · exact absurd hx hA
            have hsel := selection_exists hwf hne hAf
            obtain ⟨hlt, hEnum⟩ := choose_lt_and_enum hwf hne hsel
            have hpd := enumCount_positive_cofactor_lt hwf hlt hEnum
            have hnd := enumCount_negative_cofactor_lt hwf hlt hEnum
            rw [ih fuel2 (F.positive_cofactor (MetaFunction.choose_recursion_variable F))
              (wf_positive_cofactor hwf _) (by omega) (by omega)]
            rw [ih fuel2 (F.negative_cofactor (MetaFunction.choose_recursion_variable F))
              (wf_negative_cofactor hwf _) (by omega) (by omega)]

/-- The Shannon expansion of the SOP semantics at one variable. -/
theorem shannon_eval (F : CubeList) (i : Nat) (a : Nat → Bool) :
    F.eval a = ((a i && F.eval (Function.update a i true))
      || (!(a i) && F.eval (Function.update a i false))) := by
  cases hb : a i
  · simp only [Bool.false_and, Bool.not_false, Bool.true_and, Bool.false_or]
    have : Function.update a i false = a := by
      rw [← hb]
      exact Function.update_eq_self i a
    rw [this]
  · simp only [Bool.true_and, Bool.not_true, Bool.false_and, Bool.or_false]
    have : Function.update a i true = a := by
      rw [← hb]
      exact Function.update_eq_self i a
    rw [this]

/-- Restricting truth of F to both halves of the split is truth of F. -/
theorem forall_update_iff (F : CubeList) (i : Nat) :
    ((∀ a, F.eval (Function.update a i true) = true)
        ∧ (∀ a, F.eval (Function.update a i false) = true))
      ↔ ∀ a, F.eval a = true := by
  constructor
  · rintro ⟨h1, h0⟩ a
    rw [shannon_eval F i a, h1 a, h0 a]
    cases a i <;> rfl
  · intro h
    exact ⟨fun a => h _, fun a => h _⟩

/-- Soundness of the fuelled tautology check on well-formed input. -/
theorem taut_fuel_sound :
    ∀ (fuel : Nat) (F : CubeList), F.wf → F.enumCount < fuel →
      (is_tautologyF fuel F = some true ↔ ∀ a, F.eval a = true) := by
  intro fuel
  induction fuel with
  | zero =>
    intro F _ h
    omega
  | succ fuel ih =>
    intro F hwf hcnt
    simp only [is_tautologyF]
    by_cases hA : F.list.any Cube.is_tautology = true
    · rw [if_pos hA]
      rcases List.any_eq_true.mp hA with ⟨c, hc, hct⟩
      constructor
      · intro _ a
        exact eval_true_iff_exists.mpr ⟨c, hc, Cube.eval_of_is_tautology hct a⟩
      · intro _
        rfl
    · rw [if_neg hA]
      by_cases hz : F.is_zero = true
      · rw [if_pos hz]
        have hnil := list_eq_nil_of_wf_is_zero hwf hz
        constructor
        · intro hcontra
          exact absurd hcontra (by simp)
        · intro hall
          have := hall (fun _ => true)
          rw [eval, hnil] at this
          exact absurd this (by simp)
      · rw [if_neg hz]
        by_cases h1 : F.size = 1
        · rw [if_pos h1]
          rw [size, List.length_eq_one] at h1
          rcases h1 with ⟨c, hl⟩
          have hc : c ∈ F.list := by
            rw [hl]
            exact List.mem_cons_self c []
          have hct : c.is_tautology = false := by
            cases hx : c.is_tautology
            · rfl
            · exact absurd (List.any_eq_true.mpr ⟨c, hc, hx⟩) hA
          have hcz := (hwf c hc).2
          constructor
          · intro hcontra
            exact absurd hcontra (by simp)
          · intro hall
            exfalso
            have := hall (fun j => decide (Cube.factorAt c j = Factor.neg))
            rw [eval, hl] at this
            simp only [List.any_cons, List.any_nil, Bool.or_false] at this
            rw [Cube.exists_falsifier hcz hct] at this
            cases this
        · rw [if_neg h1]
          have hzf : F.is_zero = false := by
            cases hx : F.is_zero
            · rfl
            · exact absurd hx hz
          have hne : F.list ≠ [] := ne_nil_of_is_zero_false hzf
          have hAf : F.list.any Cube.is_tautology = false := by
            cases hx : F.list.any Cube.is_tautology
            · rfl
            · exact absurd hx hA
          have hsel := selection_exists hwf hne hAf
          obtain ⟨hlt, hEnum⟩ := choose_lt_and_enum hwf hne hsel
          have hpd := enumCount_positive_cofactor_lt hwf hlt hEnum
          have hnd := enumCount_negative_cofactor_lt hwf hlt hEnum
          have hiffp := ih (F.positive_cofactor (MetaFunction.choose_recursion_variable F))
            (wf_positive_cofactor hwf _) (by omega)
          have hiffn := ih (F.negative_cofactor (MetaFunction.choose_recursion_variable F))
            (wf_negative_cofactor hwf _) (by omega)
          rcases Option.isSome_iff_exists.mp
            (taut_fuel_isSome fuel _ (wf_positive_cofactor hwf
              (MetaFunction.choose_recursion_variable F)) (by omega)) with ⟨x, hx⟩
          rcases Option.isSome_iff_exists.mp
            (taut_fuel_isSome fuel _ (wf_negative_cofactor hwf
              (MetaFunction.choose_recursion_variable F)) (by omega)) with ⟨y, hy⟩
          rw [hx, hy]
          rw [hx] at hiffp
          rw [hy] at hiffn
          have hxiff : x = true ↔
              ∀ a, (F.positive_cofactor (MetaFunction.choose_recursion_variable F)).eval a
                = true := by
            rw [← hiffp]
            simp
          have hyiff : y = true ↔
              ∀ a, (F.negative_cofactor (MetaFunction.choose_recursion_variable F)).eval a
                = true := by
            rw [← hiffn]
            simp
          simp only [Option.some.injEq, Bool.and_eq_true]
          rw [hxiff, hyiff]
          have hpe : ∀ a,
              (F.positive_cofactor (MetaFunction.choose_recursion_variable F)).eval a
                = F.eval (Function.update a (MetaFunction.choose_recursion_variable F) true) :=
            fun a => positive_cofactor_eval_fn F _ a
          have hnp : ∀ a,
              (F.negative_cofactor (MetaFunction.choose_recursion_variable F)).eval a
                = F.eval (Function.update a (MetaFunction.choose_recursion_variable F) false) :=
            fun a => negative_cofactor_eval_fn F _ a
          constructor
          · rintro ⟨hxt, hyt⟩
            apply (forall_update_iff F (MetaFunction.choose_recursion_variable F)).mp
            constructor
            · intro a
              rw [← hpe a]
              exact hxt a
            · intro a
              rw [← hnp a]
              exact hyt a
          · intro hall
            have := (forall_update_iff F (MetaFunction.choose_recursion_variable F)).mpr hall
            constructor
            · intro a
              rw [hpe a]
              exact this.1 a
            · intro a
              rw [hnp a]
              exact this.2 a

end CubeList

end URP

namespace URP

namespace CubeList

/-- Semantic characterisation of is_tautology on well-formed lists. -/
theorem is_tautology_iff_forall {F : CubeList} (hwf : F.wf) :
    F.is_tautology = true ↔ ∀ a, F.eval a = true := by
  rw [is_tautology]
  have hs := taut_fuel_isSome (F.enumCount + 1) F hwf (by omega)
  have hiff := taut_fuel_sound (F.enumCount + 1) F hwf (by omega)
  rcases Option.isSome_iff_exists.mp hs with ⟨b, hb⟩
  rw [hb] at hiff
  rw [hb]
  simp only [Option.getD_some]
  rw [← hiff]
  simp

theorem is_tautology_of_any_taut {F : CubeList}
    (h : F.list.any Cube.is_tautology = true) : F.is_tautology = true := by
  rw [is_tautology]
  simp only [is_tautologyF]
  rw [if_pos h]
  rfl

theorem is_tautology_of_is_zero {F : CubeList} (h : F.is_zero = true) :
    F.is_tautology = false := by
  rw [is_tautology]
  simp only [is_tautologyF]
  rw [if_neg, if_pos h]
  · rfl
  · rw [any_taut_eq_false_of_is_zero h]
    simp

theorem is_tautology_of_single {F : CubeList} {c : Cube} (hl : F.list = [c])
    (hct : c.is_tautology = false) (hcz : c.is_zero = false) :
    F.is_tautology = false := by
  have hA : F.list.any Cube.is_tautology = false := by
    rw [hl]
    simp [hct]
  have hz : F.is_zero = false := by
    rw [is_zero, size, hl]
    simp [hcz]
  have h1 : F.size = 1 := by
    rw [size, hl]
    rfl
  rw [is_tautology]
  simp only [is_tautologyF]
  rw [if_neg (by rw [hA]; simp), if_neg (by rw [hz]; simp), if_pos h1]
  rfl

/-- Full specification of the fuelled complement on well-formed input:
    the recursion completes and the result is a well-formed SOP of the
    same arity computing the negation. -/
theorem not_fuel_spec :
    ∀ (fuel : Nat) (F : CubeList), F.wf → F.enumCount < fuel →
      ∃ R : CubeList, bool_notF fuel F = some R ∧ R.wf ∧ R.dim = F.dim ∧
        ∀ a, R.eval a = !(F.eval a) := by
  intro fuel
  induction fuel with
  | zero =>
    intro F _ h
    omega
  | succ fuel ih =>
    intro F hwf hcnt
    simp only [bool_notF]
    by_cases hs0 : F.size = 0
    · rw [if_pos hs0]
      refine ⟨⟨F.N, [Cube.ones F.N]⟩, rfl, ?_, rfl, ?_⟩
      · intro c hc
        have : c = Cube.ones F.N := by
          rcases List.mem_cons.mp hc with h | h
          · exact h
          · exact absurd h (List.not_mem_nil c)
        rw [this]
        exact ⟨Cube.length_ones F.N, Cube.is_zero_ones F.N⟩
      · intro a
        have hnil : F.list = [] := by
          rw [size, List.length_eq_zero] at hs0
          exact hs0
        have hFz : F.eval a = false := by
          rw [eval, hnil]
          rfl
        have hRt : CubeList.eval ⟨F.N, [Cube.ones F.N]⟩ a = true := by
          rw [eval]
          simp [Cube.eval_ones F.N a]
        rw [hRt, hFz]
        rfl
    · rw [if_neg hs0]
      by_cases ht : F.is_tautology = true
      · rw [if_pos ht]
        refine ⟨⟨F.N, []⟩, rfl, ?_, rfl, ?_⟩
        · intro c hc
          exact absurd hc (List.not_mem_nil c)
        · intro a
          have hFt := (is_tautology_iff_forall hwf).mp ht a
          have hRz : CubeList.eval ⟨F.N, []⟩ a = false := rfl
          rw [hRz, hFt]
          rfl
      · rw [if_neg ht]
        by_cases h1 : F.size = 1
        · rw [if_pos h1]
          rw [size, List.length_eq_one] at h1
          rcases h1 with ⟨c, hl⟩
          have hc : c ∈ F.list := by
            rw [hl]
            exact List.mem_cons_self c []
          have hhead : F.list.headD [] = c := by
            rw [hl]
            rfl
          rw [hhead]
          refine ⟨Cube.bool_not c, rfl, Cube.wf_cube_bool_not c, ?_, ?_⟩
          · show c.length = F.dim
            exact (hwf c hc).1
          · intro a
            rw [Cube.bool_not_eval c a]
            have : F.eval a = c.eval a := by
              rw [eval, hl]
              simp
            rw [this]
        · rw [if_neg h1]
          have hne : F.list ≠ [] := by
            intro hnil
            apply hs0
            rw [size, hnil]
            rfl
          have hAf : F.list.any Cube.is_tautology = false := by
            cases hx : F.list.any Cube.is_tautology
            · rfl
            · exact absurd (is_tautology_of_any_taut hx) ht
          have hsel := selection_exists hwf hne hAf
          obtain ⟨hlt, hEnum⟩ := choose_lt_and_enum hwf hne hsel
          have hpd := enumCount_positive_cofactor_lt hwf hlt hEnum
          have hnd := enumCount_negative_cofactor_lt hwf hlt hEnum
          obtain ⟨G, hG, hGwf, hGdim, hGeval⟩ :=
            ih (F.positive_cofactor (MetaFunction.choose_recursion_variable F))
              (wf_positive_cofactor hwf _) (by omega)
          obtain ⟨H, hH, hHwf, hHdim, hHeval⟩ :=
            ih (F.negative_cofactor (MetaFunction.choose_recursion_variable F))
              (wf_negative_cofactor hwf _) (by omega)
          rw [hG, hH]
          have hGdim2 : G.dim = F.dim := hGdim
          have hHdim2 : H.dim = F.dim := hHdim
          refine ⟨_, rfl, ?_, ?_, ?_⟩
          · apply wf_bool_or (wf_bool_and hGwf) (wf_bool_and hHwf)
            show H.dim = G.dim
            rw [hGdim2, hHdim2]
          · show G.dim = F.dim
            exact hGdim2
          · intro a
            rw [bool_or_eval]
            rw [bool_and_eval_fn ⟨MetaFunction.choose_recursion_variable F, Factor.pos⟩ G a
              (by
                intro c hcG
                show MetaFunction.choose_recursion_variable F < c.length
                rw [(hGwf c hcG).1, hGdim2]
                exact hlt)]
            rw [bool_and_eval_fn ⟨MetaFunction.choose_recursion_variable F, Factor.neg⟩ H a
              (by
                intro c hcH
                show MetaFunction.choose_recursion_variable F < c.length
                rw [(hHwf c hcH).1, hHdim2]
                exact hlt)]
            rw [hGeval a, hHeval a]
            rw [positive_cofactor_eval_fn, negative_cofactor_eval_fn]
            rw [shannon_eval F (MetaFunction.choose_recursion_variable F) a]
            simp only [Factor.eval_pos, Factor.eval_neg]
            cases a (MetaFunction.choose_recursion_variable F) <;>
              cases F.eval (Function.update a (MetaFunction.choose_recursion_variable F) true) <;>
              cases F.eval (Function.update a (MetaFunction.choose_recursion_variable F) false) <;>
              rfl

/-- The complement wrapper on well-formed input: well-formed, same arity,
    and semantically the negation. -/
theorem bool_not_spec {F : CubeList} (hwf : F.wf) :
    (F.bool_not).wf ∧ (F.bool_not).dim = F.dim ∧ ∀ a, (F.bool_not).eval a = !(F.eval a) := by
  obtain ⟨R, hR, h1, h2, h3⟩ := not_fuel_spec (F.enumCount + 1) F hwf (by omega)
  rw [bool_not, hR]
  simpa using ⟨h1, h2, h3⟩

end CubeList

end URP

namespace URP

theorem bool_not_empty (N : Nat) : CubeList.bool_not ⟨N, []⟩ = ⟨N, [Cube.ones N]⟩ := by
  rw [CubeList.bool_not]
  simp only [CubeList.bool_notF]
  rw [if_pos]
  · rfl
  · rfl

theorem bool_not_of_tautology {F : CubeList} (ht : F.is_tautology = true) :
    F.bool_not = ⟨F.N, []⟩ := by
  have hs0 : F.size ≠ 0 := by
    intro h0
    have hz : F.is_zero = true := by
      rw [CubeList.is_zero]
      simp [h0]
    rw [CubeList.is_tautology_of_is_zero hz] at ht
    cases ht
  rw [CubeList.bool_not]
  simp only [CubeList.bool_notF]
  rw [if_neg hs0, if_pos ht]
  rfl

/-- Claim C1: for every well-formed CubeList F, the double complement
    computes the same Boolean function as F: under every assignment the
    two SOPs evaluate identically, without requiring syntactic equality. -/
theorem claim_C1_involution (F : CubeList) (hwf : F.wf) :
    ∀ a : Nat → Bool, (F.bool_not.bool_not).eval a = F.eval a := by
  intro a
  obtain ⟨hwf1, _, hev1⟩ := CubeList.bool_not_spec hwf
  obtain ⟨_, _, hev2⟩ := CubeList.bool_not_spec hwf1
  rw [hev2 a, hev1 a, Bool.not_not]

theorem claim_C1_involution_witness :
    (CubeList.wf ⟨2, [[Factor.pos, Factor.one], [Factor.neg, Factor.neg]]⟩) ∧
      ((CubeList.bool_not (CubeList.bool_not
          ⟨2, [[Factor.pos, Factor.one], [Factor.neg, Factor.neg]]⟩)).eval (fun _ => true)
        = CubeList.eval ⟨2, [[Factor.pos, Factor.one], [Factor.neg, Factor.neg]]⟩
            (fun _ => true)) :=
  ⟨by decide, claim_C1_involution ⟨2, [[Factor.pos, Factor.one], [Factor.neg, Factor.neg]]⟩
    (by decide) (fun _ => true)⟩

/-- Claim C2: on well-formed input is_tautology decides truth under every
    assignment; it is true at face value on a list holding an all-ones
    cube, false on the zero SOP (empty or all cubes zero), and false on a
    one-cube SOP whose cube is neither tautological nor zero. -/
theorem claim_C2_tautology (F : CubeList) :
    (F.wf → (F.is_tautology = true ↔ ∀ a, F.eval a = true))
    ∧ (F.list.any Cube.is_tautology = true → F.is_tautology = true)
    ∧ (F.is_zero = true → F.is_tautology = false)
    ∧ (∀ c, F.list = [c] → c.is_tautology = false → c.is_zero = false →
        F.is_tautology = false) :=
  ⟨fun hwf => CubeList.is_tautology_iff_forall hwf,
    CubeList.is_tautology_of_any_taut, CubeList.is_tautology_of_is_zero,
    fun _ hl hct hcz => CubeList.is_tautology_of_single hl hct hcz⟩

theorem claim_C2_tautology_witness :
    (CubeList.is_tautology ⟨1, [[Factor.pos], [Factor.neg]]⟩ = true ↔
      ∀ a, CubeList.eval ⟨1, [[Factor.pos], [Factor.neg]]⟩ a = true)
    ∧ CubeList.is_tautology ⟨2, [[Factor.one, Factor.one], [Factor.pos, Factor.neg]]⟩ = true
    ∧ CubeList.is_tautology ⟨3, []⟩ = false
    ∧ CubeList.is_tautology ⟨2, [[Factor.pos, Factor.one]]⟩ = false :=
  ⟨(claim_C2_tautology _).1 (by decide),
    (claim_C2_tautology _).2.1 (by decide),
    (claim_C2_tautology _).2.2.1 (by decide),
    (claim_C2_tautology _).2.2.2 [Factor.pos, Factor.one] rfl (by decide) (by decide)⟩

/-- Claim C3: every well-formed SOP equals the disjunction of its split on
    any variable index below the arity: F is x_i AND the positive
    cofactor, OR NOT x_i AND the negative cofactor, under every
    assignment. -/
theorem claim_C3_cofactor_identity (F : CubeList) (i : Nat) (hwf : F.wf) (hi : i < F.N) :
    ∀ a : Nat → Bool, F.eval a =
      ((a i && (F.positive_cofactor i).eval a)
        || (!(a i) && (F.negative_cofactor i).eval a)) := by
  intro a
  rw [CubeList.positive_cofactor_eval_fn, CubeList.negative_cofactor_eval_fn]
  exact CubeList.shannon_eval F i a

theorem claim_C3_cofactor_identity_witness :
    (CubeList.wf ⟨3, [[Factor.one, Factor.pos, Factor.neg], [Factor.pos, Factor.neg, Factor.pos]]⟩)
    ∧ (CubeList.eval ⟨3, [[Factor.one, Factor.pos, Factor.neg],
          [Factor.pos, Factor.neg, Factor.pos]]⟩ (fun _ => false)
        = (((fun (_ : Nat) => false) 1
              && (CubeList.positive_cofactor ⟨3, [[Factor.one, Factor.pos, Factor.neg],
                    [Factor.pos, Factor.neg, Factor.pos]]⟩ 1).eval (fun _ => false))
            || (!((fun (_ : Nat) => false) 1)
              && (CubeList.negative_cofactor ⟨3, [[Factor.one, Factor.pos, Factor.neg],
                    [Factor.pos, Factor.neg, Factor.pos]]⟩ 1).eval (fun _ => false)))) :=
  ⟨by decide, claim_C3_cofactor_identity ⟨3, [[Factor.one, Factor.pos, Factor.neg],
      [Factor.pos, Factor.neg, Factor.pos]]⟩ 1 (by decide) (by decide) (fun _ => false)⟩

/-- Claim C5: the complement of the empty SOP of arity N is the single
    all-ones cube of arity N, and the complement of any tautological SOP
    of arity N, in particular the one holding just the all-ones cube, is
    the empty SOP of arity N. -/
theorem claim_C5_constants (N : Nat) :
    (CubeList.bool_not ⟨N, []⟩ = ⟨N, [Cube.ones N]⟩)
    ∧ (∀ F : CubeList, F.N = N → F.is_tautology = true → F.bool_not = ⟨N, []⟩)
    ∧ (CubeList.bool_not ⟨N, [Cube.ones N]⟩ = ⟨N, []⟩) := by
  refine ⟨bool_not_empty N, ?_, ?_⟩
  · intro F hN ht
    rw [bool_not_of_tautology ht, hN]
  · have ht : CubeList.is_tautology ⟨N, [Cube.ones N]⟩ = true := by
      apply CubeList.is_tautology_of_any_taut
      simp [Cube.is_tautology_ones N]
    rw [bool_not_of_tautology ht]
    rfl

theorem claim_C5_constants_witness :
    CubeList.bool_not ⟨2, [[Factor.pos, Factor.neg], [Factor.neg, Factor.pos],
        [Factor.pos, Factor.pos], [Factor.neg, Factor.neg]]⟩ = ⟨2, []⟩ :=
  (claim_C5_constants 2).2.1 ⟨2, [[Factor.pos, Factor.neg], [Factor.neg, Factor.pos],
    [Factor.pos, Factor.pos], [Factor.neg, Factor.neg]]⟩ rfl (by decide)

/-- Claim C8: on well-formed input both recursions complete within a
    recursion depth bounded by the number of enumerated variables of the
    problem, which itself never exceeds the arity. -/
theorem claim_C8_termination (F : CubeList) (hwf : F.wf) :
    ((CubeList.is_tautologyF (F.enumCount + 1) F).isSome = true)
    ∧ ((CubeList.bool_notF (F.enumCount + 1) F).isSome = true)
    ∧ F.enumCount ≤ F.N := by
  refine ⟨CubeList.taut_fuel_isSome _ F hwf (by omega), ?_, CubeList.enumCount_le_N F⟩
  obtain ⟨R, hR, _, _, _⟩ := CubeList.not_fuel_spec (F.enumCount + 1) F hwf (by omega)
  rw [hR]
  rfl

theorem claim_C8_termination_witness :
    ((CubeList.is_tautologyF
        (CubeList.enumCount ⟨2, [[Factor.pos, Factor.neg], [Factor.neg, Factor.pos]]⟩ + 1)
        ⟨2, [[Factor.pos, Factor.neg], [Factor.neg, Factor.pos]]⟩).isSome = true)
    ∧ ((CubeList.bool_notF
        (CubeList.enumCount ⟨2, [[Factor.pos, Factor.neg], [Factor.neg, Factor.pos]]⟩ + 1)
        ⟨2, [[Factor.pos, Factor.neg], [Factor.neg, Factor.pos]]⟩).isSome = true)
    ∧ CubeList.enumCount ⟨2, [[Factor.pos, Factor.neg], [Factor.neg, Factor.pos]]⟩
        ≤ CubeList.N ⟨2, [[Factor.pos, Factor.neg], [Factor.neg, Factor.pos]]⟩ :=
  claim_C8_termination ⟨2, [[Factor.pos, Factor.neg], [Factor.neg, Factor.pos]]⟩ (by decide)

/-- Claim C9: the recursive branches of both algorithms, where the
    meta-analysis reads the first cube, are only reached once the base
    cases have ruled out lists of fewer than two cubes, so the first-cube
    read never happens on an empty list. -/
theorem claim_C9_meta_guard (F : CubeList) :
    ((F.list.any Cube.is_tautology = false) → F.is_zero = false → F.size ≠ 1 →
      (2 ≤ F.size ∧ F.list ≠ []))
    ∧ (F.size ≠ 0 → F.is_tautology = false → F.size ≠ 1 → (2 ≤ F.size ∧ F.list ≠ [])) := by
  constructor
  · intro _ hz h1
    have hne := CubeList.ne_nil_of_is_zero_false hz
    have h0 : F.size ≠ 0 := by
      intro h0
      apply hne
      rw [CubeList.size, List.length_eq_zero] at h0
      exact h0
    exact ⟨by omega, hne⟩
  · intro h0 _ h1
    have hne : F.list ≠ [] := by
      intro hnil
      apply h0
      rw [CubeList.size, hnil]
      rfl
    exact ⟨by omega, hne⟩

theorem claim_C9_meta_guard_witness :
    (2 ≤ CubeList.size ⟨1, [[Factor.pos], [Factor.neg]]⟩
      ∧ CubeList.list ⟨1, [[Factor.pos], [Factor.neg]]⟩ ≠ [])
    ∧ (2 ≤ CubeList.size ⟨2, [[Factor.pos, Factor.one], [Factor.pos, Factor.pos]]⟩
      ∧ CubeList.list ⟨2, [[Factor.pos, Factor.one], [Factor.pos, Factor.pos]]⟩ ≠ []) :=
  ⟨(claim_C9_meta_guard ⟨1, [[Factor.pos], [Factor.neg]]⟩).1 (by decide) (by decide)
      (by decide),
    (claim_C9_meta_guard ⟨2, [[Factor.pos, Factor.one], [Factor.pos, Factor.pos]]⟩).2
      (by decide) (by decide) (by decide)⟩

/-- Claim C10: every CubeList-producing core operation carries over the
    arity of its first CubeList argument (for the cube complement, the
    length of the cube); bool_or in particular takes the arity of its
    first operand whatever the arity of the second. -/
theorem claim_C10_arity (F G : CubeList) (v : BooleanVariable) (c : Cube) (i : Nat) :
    (F.positive_cofactor i).N = F.N
    ∧ (F.negative_cofactor i).N = F.N
    ∧ (CubeList.bool_and v F).N = F.N
    ∧ (Cube.bool_not c).N = c.length
    ∧ (F.bool_or G).N = F.N
    ∧ (F.wf → (F.bool_not).N = F.N) := by
  refine ⟨rfl, rfl, rfl, rfl, rfl, ?_⟩
  intro hwf
  exact (CubeList.bool_not_spec hwf).2.1

theorem claim_C10_arity_witness :
    (CubeList.positive_cofactor ⟨3, [[Factor.pos, Factor.one, Factor.neg]]⟩ 0).N
        = CubeList.N ⟨3, [[Factor.pos, Factor.one, Factor.neg]]⟩
    ∧ (CubeList.negative_cofactor ⟨3, [[Factor.pos, Factor.one, Factor.neg]]⟩ 0).N
        = CubeList.N ⟨3, [[Factor.pos, Factor.one, Factor.neg]]⟩
    ∧ (CubeList.bool_and ⟨0, Factor.pos⟩ ⟨3, [[Factor.pos, Factor.one, Factor.neg]]⟩).N
        = CubeList.N ⟨3, [[Factor.pos, Factor.one, Factor.neg]]⟩
    ∧ (Cube.bool_not [Factor.pos, Factor.one, Factor.neg]).N
        = ([Factor.pos, Factor.one, Factor.neg] : Cube).length
    ∧ (CubeList.bool_or ⟨3, [[Factor.pos, Factor.one, Factor.neg]]⟩ ⟨7, []⟩).N
        = CubeList.N ⟨3, [[Factor.pos, Factor.one, Factor.neg]]⟩
    ∧ (CubeList.bool_not ⟨3, [[Factor.pos, Factor.one, Factor.neg]]⟩).N
        = CubeList.N ⟨3, [[Factor.pos, Factor.one, Factor.neg]]⟩ := by
  have h := claim_C10_arity ⟨3, [[Factor.pos, Factor.one, Factor.neg]]⟩ ⟨7, []⟩
    ⟨0, Factor.pos⟩ [Factor.pos, Factor.one, Factor.neg] 0
  exact ⟨h.1, h.2.1, h.2.2.1, h.2.2.2.1, h.2.2.2.2.1, h.2.2.2.2.2 (by decide)⟩

end URP

namespace URP

namespace Cube

theorem bool_not_go_eq (n : Nat) :
    ∀ (fs : List Factor) (i : Nat), i + fs.length ≤ n → (∀ f ∈ fs, f ≠ Factor.zero) →
      Cube.bool_not_go n i fs
        = ((List.range fs.length).filter (fun j => (Cube.factorAt fs j).is_enum)).map
            (fun j => (Cube.ones n).set (i + j) (Factor.bool_not (Cube.factorAt fs j))) := by
  intro fs
  induction fs with
  | nil =>
    intro i _ _
    rfl
  | cons f fs ih =>
    intro i hle hnz
    have hi : i < n := by
      simp only [List.length_cons] at hle
      omega
    have hrec : (i + 1) + fs.length ≤ n := by
      simp only [List.length_cons] at hle
      omega
    have hnz2 : ∀ f2 ∈ fs, f2 ≠ Factor.zero := fun f2 hf2 => hnz f2 (List.mem_cons_of_mem f hf2)
    have hAt0 : Cube.factorAt (f :: fs) 0 = f := rfl
    have hAtS : ∀ j : Nat, Cube.factorAt (f :: fs) (j + 1) = Cube.factorAt fs j := by
      intro j
      simp [Cube.factorAt, List.getD_cons_succ]
    rw [Cube.bool_not_go, set_ones_eq_bool_and hi, is_zero_set_ones hi]
    rw [List.length_cons, List.range_succ_eq_map, List.filter_cons]
    by_cases hf : f = Factor.one
    · have hz : decide (Factor.bool_not f = Factor.zero) = true := by
        rw [(Factor.bool_not_eq_zero_iff f).mpr hf]
        decide
      have hp0 : (Cube.factorAt (f :: fs) 0).is_enum = false := by
        rw [hAt0, hf]
        decide
      rw [hz, if_pos rfl, hp0]
      rw [if_neg (by decide : ¬(false = true))]
      rw [List.filter_map, List.map_map]
      rw [ih (i + 1) hrec hnz2]
      rw [List.filter_congr (by
        intro x _
        show ((fun j => (Cube.factorAt (f :: fs) j).is_enum) ∘ Nat.succ) x
          = (fun j => (Cube.factorAt fs j).is_enum) x
        simp only [Function.comp]
        rw [hAtS x])]
      apply List.map_congr_left
      intro j _
      show (Cube.ones n).set ((i + 1) + j) (Factor.bool_not (Cube.factorAt fs j))
        = (Cube.ones n).set (i + Nat.succ j) (Factor.bool_not (Cube.factorAt (f :: fs) (Nat.succ j)))
      rw [hAtS j]
      have : (i + 1) + j = i + Nat.succ j := by omega
      rw [this]
    · have hfz : f ≠ Factor.zero := hnz f (List.mem_cons_self f fs)
      have hz : decide (Factor.bool_not f = Factor.zero) = false := by
        apply decide_eq_false
        intro hcontra
        exact hf ((Factor.bool_not_eq_zero_iff f).mp hcontra)
      have hp0 : (Cube.factorAt (f :: fs) 0).is_enum = true := by
        rw [hAt0]
        rcases Factor.cases_all f with h1 | h1 | h1 | h1
        · rw [h1]
          decide
        · rw [h1]
          decide
        · exact absurd h1 hf
        · exact absurd h1 hfz
      rw [hz, if_neg (by decide : ¬(false = true)), hp0, if_pos rfl]
      rw [List.map_cons]
      have hhead : (Cube.ones n).set i (Factor.bool_not f)
          = (Cube.ones n).set (i + 0) (Factor.bool_not (Cube.factorAt (f :: fs) 0)) := by
        rw [hAt0, Nat.add_zero]
      have htail : Cube.bool_not_go n (i + 1) fs
          = ((List.range fs.length).filter
                ((fun j => (Cube.factorAt (f :: fs) j).is_enum) ∘ Nat.succ)).map
              ((fun j => (Cube.ones n).set (i + j) (Factor.bool_not (Cube.factorAt (f :: fs) j)))
                ∘ Nat.succ) := by
        rw [ih (i + 1) hrec hnz2]
        rw [List.filter_congr (by
          intro x _
          show ((fun j => (Cube.factorAt (f :: fs) j).is_enum) ∘ Nat.succ) x
            = (fun j => (Cube.factorAt fs j).is_enum) x
          simp only [Function.comp]
          rw [hAtS x])]
        apply List.map_congr_left
        intro j _
        show (Cube.ones n).set ((i + 1) + j) (Factor.bool_not (Cube.factorAt fs j))
          = (Cube.ones n).set (i + Nat.succ j)
              (Factor.bool_not (Cube.factorAt (f :: fs) (Nat.succ j)))
        rw [hAtS j]
        have : (i + 1) + j = i + Nat.succ j := by omega
        rw [this]
      rw [List.filter_map, List.map_map, hhead, htail]

theorem bool_not_list_eq {c : Cube} (hz : c.is_zero = false) :
    (Cube.bool_not c).list
      = ((List.range c.length).filter (fun j => (Cube.factorAt c j).is_enum)).map
          (fun j => (Cube.ones c.length).set j (Factor.bool_not (Cube.factorAt c j))) := by
  have hnz : ∀ f ∈ c, f ≠ Factor.zero := is_zero_eq_false_iff.mp hz
  show Cube.bool_not_go c.length 0 c = _
  rw [bool_not_go_eq c.length c 0 (by omega) hnz]
  apply List.map_congr_left
  intro j _
  have : 0 + j = j := by omega
  rw [this]

theorem bool_not_go_nil_of_taut {c : Cube} (ht : c.is_tautology = true) :
    Cube.bool_not_go c.length 0 c = [] := by
  have hnz : ∀ f ∈ c, f ≠ Factor.zero := by
    intro f hf
    rw [is_tautology_eq_true_iff.mp ht f hf]
    decide
  rw [bool_not_go_eq c.length c 0 (by omega) hnz]
  have : (List.range c.length).filter (fun j => (Cube.factorAt c j).is_enum) = [] := by
    apply List.filter_eq_nil_iff.mpr
    intro j hj
    have hmem := factorAt_mem (List.mem_range.mp hj)
    rw [is_tautology_eq_true_iff.mp ht _ hmem]
    decide
  rw [this]
  rfl

end Cube

namespace CubeList

theorem is_tautology_singleton (n : Nat) (c : Cube) :
    CubeList.is_tautology ⟨n, [c]⟩ = c.is_tautology := by
  cases hct : c.is_tautology with
  | true =>
    apply is_tautology_of_any_taut
    simp [hct]
  | false =>
    cases hcz : c.is_zero with
    | true =>
      apply is_tautology_of_is_zero
      rw [CubeList.is_zero]
      simp [hcz]
    | false => exact is_tautology_of_single rfl hct hcz

theorem bool_not_single_not_taut {n : Nat} {c : Cube} (ht : c.is_tautology = false) :
    CubeList.bool_not ⟨n, [c]⟩ = Cube.bool_not c := by
  have hT : CubeList.is_tautology ⟨n, [c]⟩ = false := by
    rw [is_tautology_singleton]
    exact ht
  rw [CubeList.bool_not]
  simp only [CubeList.bool_notF]
  rw [if_neg (show ¬(CubeList.size ⟨n, [c]⟩ = 0) from fun hh => Nat.one_ne_zero hh)]
  rw [if_neg (by rw [hT]; simp)]
  rw [if_pos (show CubeList.size ⟨n, [c]⟩ = 1 from rfl)]
  rfl

end CubeList

/-- Claim C6: complement of a one-cube SOP agrees with the DeMorgan cube
    complement (even as lists, hence as multisets), and on a cube with no
    zero factor the cube complement has the arity of the cube, lists for
    each enumerated position the single-literal cube with the complemented
    factor there and ones elsewhere, and its size is the number of
    enumerated positions. -/
theorem claim_C6_demorgan (c : Cube) :
    ((CubeList.bool_not ⟨c.length, [c]⟩).list = (Cube.bool_not c).list)
    ∧ (((CubeList.bool_not ⟨c.length, [c]⟩).list : Multiset Cube)
        = ((Cube.bool_not c).list : Multiset Cube))
    ∧ (c.is_zero = false →
        (Cube.bool_not c).dim = c.length
        ∧ (Cube.bool_not c).list
            = ((List.range c.length).filter (fun j => (Cube.factorAt c j).is_enum)).map
                (fun j => (Cube.ones c.length).set j (Factor.bool_not (Cube.factorAt c j)))
        ∧ (Cube.bool_not c).size
            = ((List.range c.length).filter (fun j => (Cube.factorAt c j).is_enum)).length) := by
  have hlist : (CubeList.bool_not ⟨c.length, [c]⟩).list = (Cube.bool_not c).list := by
    cases hct : c.is_tautology with
    | true =>
      have hT : CubeList.is_tautology ⟨c.length, [c]⟩ = true := by
        rw [CubeList.is_tautology_singleton]
        exact hct
      rw [bool_not_of_tautology hT]
      show ([] : List Cube) = (Cube.bool_not c).list
      rw [show (Cube.bool_not c).list = Cube.bool_not_go c.length 0 c from rfl]
      rw [Cube.bool_not_go_nil_of_taut hct]
    | false =>
      rw [CubeList.bool_not_single_not_taut hct]
  refine ⟨hlist, by rw [hlist], ?_⟩
  intro hz
  refine ⟨rfl, Cube.bool_not_list_eq hz, ?_⟩
  show (Cube.bool_not c).list.length = _
  rw [Cube.bool_not_list_eq hz, List.length_map]

theorem claim_C6_demorgan_witness :
    ((CubeList.bool_not ⟨3, [[Factor.pos, Factor.one, Factor.neg]]⟩).list
      = (Cube.bool_not [Factor.pos, Factor.one, Factor.neg]).list)
    ∧ ((Cube.bool_not [Factor.pos, Factor.one, Factor.neg]).dim
          = ([Factor.pos, Factor.one, Factor.neg] : Cube).length
      ∧ (Cube.bool_not [Factor.pos, Factor.one, Factor.neg]).list
          = ((List.range ([Factor.pos, Factor.one, Factor.neg] : Cube).length).filter
              (fun j => (Cube.factorAt [Factor.pos, Factor.one, Factor.neg] j).is_enum)).map
              (fun j => (Cube.ones ([Factor.pos, Factor.one, Factor.neg] : Cube).length).set j
                (Factor.bool_not (Cube.factorAt [Factor.pos, Factor.one, Factor.neg] j)))
      ∧ (Cube.bool_not [Factor.pos, Factor.one, Factor.neg]).size
          = ((List.range ([Factor.pos, Factor.one, Factor.neg] : Cube).length).filter
              (fun j => (Cube.factorAt [Factor.pos, Factor.one, Factor.neg] j).is_enum)).length) :=
  ⟨(claim_C6_demorgan [Factor.pos, Factor.one, Factor.neg]).1,
    (claim_C6_demorgan [Factor.pos, Factor.one, Factor.neg]).2.2 (by decide)⟩

end URP

namespace URP

namespace CubeList

theorem mem_bool_or_iff {F G : CubeList} {c : Cube} :
    c ∈ (F.bool_or G).list ↔ (c ∈ F.list ∨ c ∈ G.list) := by
  show c ∈ F.list ++ G.list.filter (fun d => !F.contains d) ↔ _
  rw [List.mem_append]
  constructor
  · rintro (h | h)
    · exact Or.inl h
    · exact Or.inr (List.mem_filter.mp h).1
  · rintro (h | h)
    · exact Or.inl h
    · by_cases hc : F.contains c = true
      · exact Or.inl (contains_eq_true_iff.mp hc)
      · right
        exact List.mem_filter.mpr ⟨h, by simp [hc]⟩

theorem count_bool_or (F G : CubeList) (c : Cube) :
    ((F.bool_or G).list).count c
      = F.list.count c + (if F.contains c = true then 0 else G.list.count c) := by
  show (F.list ++ G.list.filter (fun d => !F.contains d)).count c = _
  rw [List.count_append]
  congr 1
  by_cases hc : F.contains c = true
  · rw [if_pos hc]
    apply List.count_eq_zero.mpr
    intro hmem
    have h2 := (List.mem_filter.mp hmem).2
    rw [hc] at h2
    simp at h2
  · rw [if_neg hc]
    apply List.count_filter
    simp [hc]

theorem bool_or_self (F : CubeList) : F.bool_or F = F := by
  rcases F with ⟨d, l⟩
  show (⟨d, l ++ l.filter (fun c => !CubeList.contains ⟨d, l⟩ c)⟩ : CubeList) = ⟨d, l⟩
  have hfil : l.filter (fun c => !CubeList.contains ⟨d, l⟩ c) = [] := by
    apply List.filter_eq_nil_iff.mpr
    intro c hc
    have : CubeList.contains ⟨d, l⟩ c = true := contains_eq_true_iff.mpr hc
    simp [this]
  rw [hfil, List.append_nil]

end CubeList

/-- Claim C7: or_lists keeps exactly the cubes of the first operand plus
    the cubes of the second operand not already element-wise present in
    the first: membership is union, multiplicities add except that every
    copy of a cube already in the first operand is suppressed, OR-ing a
    value with itself gives that value back, and the two-by-two example
    yields the three distinct cubes. -/
theorem claim_C7_or_lists (F G : CubeList) :
    (∀ c : Cube, c ∈ (F.bool_or G).list ↔ (c ∈ F.list ∨ c ∈ G.list))
    ∧ (∀ c : Cube, ((F.bool_or G).list).count c
        = F.list.count c + (if F.contains c = true then 0 else G.list.count c))
    ∧ (F = G → F.bool_or G = F)
    ∧ (∀ (n : Nat) (p q s : Cube), p ≠ q → s ≠ p → s ≠ q →
        (CubeList.bool_or ⟨n, [p, q]⟩ ⟨n, [s, p]⟩).list = [p, q, s]) := by
  refine ⟨fun c => CubeList.mem_bool_or_iff, fun c => CubeList.count_bool_or F G c,
    ?_, ?_⟩
  · intro hFG
    rw [hFG]
    exact CubeList.bool_or_self G
  · intro n p q s _ h1 h2
    have hcs : CubeList.contains ⟨n, [p, q]⟩ s = false := by
      rw [CubeList.contains]
      simp only [List.any_cons, List.any_nil, Bool.or_false]
      rw [decide_eq_false (Ne.symm h1), decide_eq_false (Ne.symm h2)]
      rfl
    have hcp : CubeList.contains ⟨n, [p, q]⟩ p = true := by
      rw [CubeList.contains]
      simp
    show [p, q] ++ List.filter (fun c => !CubeList.contains ⟨n, [p, q]⟩ c) [s, p] = [p, q, s]
    rw [List.filter_cons, List.filter_cons, List.filter_nil, hcs, hcp]
    rfl

theorem claim_C7_or_lists_witness :
    ([Factor.neg, Factor.neg] ∈ (CubeList.bool_or
          ⟨2, [[Factor.pos, Factor.one], [Factor.one, Factor.neg]]⟩
          ⟨2, [[Factor.neg, Factor.neg], [Factor.pos, Factor.one]]⟩).list
      ↔ ([Factor.neg, Factor.neg] ∈ ([[Factor.pos, Factor.one], [Factor.one, Factor.neg]] : List Cube)
          ∨ [Factor.neg, Factor.neg] ∈ ([[Factor.neg, Factor.neg], [Factor.pos, Factor.one]] : List Cube)))
    ∧ ((CubeList.bool_or ⟨2, [[Factor.pos, Factor.one], [Factor.one, Factor.neg]]⟩
          ⟨2, [[Factor.pos, Factor.one], [Factor.one, Factor.neg]]⟩)
        = ⟨2, [[Factor.pos, Factor.one], [Factor.one, Factor.neg]]⟩)
    ∧ ((CubeList.bool_or ⟨2, [[Factor.pos, Factor.one], [Factor.one, Factor.neg]]⟩
          ⟨2, [[Factor.neg, Factor.neg], [Factor.pos, Factor.one]]⟩).list
        = [[Factor.pos, Factor.one], [Factor.one, Factor.neg], [Factor.neg, Factor.neg]]) := by
  refine ⟨(claim_C7_or_lists ⟨2, [[Factor.pos, Factor.one], [Factor.one, Factor.neg]]⟩
      ⟨2, [[Factor.neg, Factor.neg], [Factor.pos, Factor.one]]⟩).1
      [Factor.neg, Factor.neg], ?_, ?_⟩
  · exact (claim_C7_or_lists ⟨2, [[Factor.pos, Factor.one], [Factor.one, Factor.neg]]⟩
      ⟨2, [[Factor.pos, Factor.one], [Factor.one, Factor.neg]]⟩).2.2.1 rfl
  · exact (claim_C7_or_lists ⟨2, [[Factor.pos, Factor.one], [Factor.one, Factor.neg]]⟩
      ⟨2, [[Factor.neg, Factor.neg], [Factor.pos, Factor.one]]⟩).2.2.2 2
      [Factor.pos, Factor.one] [Factor.one, Factor.neg] [Factor.neg, Factor.neg]
      (by decide) (by decide) (by decide)

end URP

namespace URP

theorem le_listMax_of_mem {l : List Nat} {y : Nat} (hy : y ∈ l) : y ≤ listMax l := by
  induction l with
  | nil => cases hy
  | cons x xs ih =>
    show y ≤ max x (xs.foldr max 0)
    rcases List.mem_cons.mp hy with rfl | h2
    · exact Nat.le_max_left y _
    · calc y ≤ xs.foldr max 0 := ih h2
      _ ≤ max x (xs.foldr max 0) := Nat.le_max_right _ _

theorem listMax_le {l : List Nat} {b : Nat} (h : ∀ y ∈ l, y ≤ b) : listMax l ≤ b := by
  induction l with
  | nil => exact Nat.zero_le b
  | cons x xs ih =>
    show max x (xs.foldr max 0) ≤ b
    apply Nat.max_le.mpr
    exact ⟨h x (List.mem_cons_self x xs), ih (fun y hy => h y (List.mem_cons_of_mem x hy))⟩

theorem foldr_min_le_init : ∀ (xs : List Nat) (x : Nat), xs.foldr min x ≤ x := by
  intro xs
  induction xs with
  | nil => intro x; exact Nat.le_refl x
  | cons y ys ih =>
    intro x
    show min y (ys.foldr min x) ≤ x
    calc min y (ys.foldr min x) ≤ ys.foldr min x := Nat.min_le_right _ _
    _ ≤ x := ih x

theorem foldr_min_le_mem : ∀ (xs : List Nat) (x y : Nat), y ∈ xs → xs.foldr min x ≤ y := by
  intro xs
  induction xs with
  | nil => intro x y hy; cases hy
  | cons z zs ih =>
    intro x y hy
    show min z (zs.foldr min x) ≤ y
    rcases List.mem_cons.mp hy with rfl | h2
    · exact Nat.min_le_left _ _
    · calc min z (zs.foldr min x) ≤ zs.foldr min x := Nat.min_le_right _ _
      _ ≤ y := ih x y h2

theorem foldr_min_choice : ∀ (xs : List Nat) (x : Nat),
    xs.foldr min x = x ∨ ∃ y ∈ xs, xs.foldr min x = y := by
  intro xs
  induction xs with
  | nil => intro x; exact Or.inl rfl
  | cons z zs ih =>
    intro x
    show (min z (zs.foldr min x) = x ∨ _)
    rcases min_choice z (zs.foldr min x) with hM | hM
    · right
      exact ⟨z, List.mem_cons_self z zs, hM⟩
    · rcases ih x with hEq | ⟨y, hy, hEq⟩
      · left
        rw [hM, hEq]
      · right
        exact ⟨y, List.mem_cons_of_mem z hy, by rw [List.foldr_cons, hM, hEq]⟩

theorem le_foldr_min : ∀ (xs : List Nat) (x b : Nat), b ≤ x → (∀ y ∈ xs, b ≤ y) →
    b ≤ xs.foldr min x := by
  intro xs
  induction xs with
  | nil => intro x b hb _; exact hb
  | cons z zs ih =>
    intro x b hb h
    show b ≤ min z (zs.foldr min x)
    apply Nat.le_min.mpr
    exact ⟨h z (List.mem_cons_self z zs),
      ih x b hb (fun y hy => h y (List.mem_cons_of_mem z hy))⟩

theorem listMin_le_mem {l : List Nat} {y : Nat} (hy : y ∈ l) : listMin l ≤ y := by
  cases l with
  | nil => cases hy
  | cons x xs =>
    show xs.foldr min x ≤ y
    rcases List.mem_cons.mp hy with rfl | h2
    · exact foldr_min_le_init xs y
    · exact foldr_min_le_mem xs x y h2

theorem le_listMin {l : List Nat} {b : Nat} (hne : l ≠ []) (h : ∀ y ∈ l, b ≤ y) :
    b ≤ listMin l := by
  cases l with
  | nil => exact absurd rfl hne
  | cons x xs =>
    show b ≤ xs.foldr min x
    exact le_foldr_min xs x b (h x (List.mem_cons_self x xs))
      (fun y hy => h y (List.mem_cons_of_mem x hy))

theorem listMin_mem {l : List Nat} (hne : l ≠ []) : listMin l ∈ l := by
  cases l with
  | nil => exact absurd rfl hne
  | cons x xs =>
    show xs.foldr min x ∈ x :: xs
    rcases foldr_min_choice xs x with hEq | ⟨y, hy, hEq⟩
    · rw [hEq]
      exact List.mem_cons_self x xs
    · rw [hEq]
      exact List.mem_cons_of_mem x hy

namespace MetaFunction

theorem foldl_max_congr {attr attr2 : Nat → Nat} :
    ∀ (l : List Nat) (acc : Nat), (∀ x ∈ l, attr x = attr2 x) →
      l.foldl (fun m y => max m (attr y)) acc = l.foldl (fun m y => max m (attr2 y)) acc := by
  intro l
  induction l with
  | nil => intro _ _; rfl
  | cons x xs ih =>
    intro acc h
    rw [List.foldl_cons, List.foldl_cons, h x (List.mem_cons_self x xs)]
    exact ih _ (fun y hy => h y (List.mem_cons_of_mem x hy))

theorem foldl_min_congr {attr attr2 : Nat → Nat} :
    ∀ (l : List Nat) (acc : Nat), (∀ x ∈ l, attr x = attr2 x) →
      l.foldl (fun m y => min m (attr y)) acc = l.foldl (fun m y => min m (attr2 y)) acc := by
  intro l
  induction l with
  | nil => intro _ _; rfl
  | cons x xs ih =>
    intro acc h
    rw [List.foldl_cons, List.foldl_cons, h x (List.mem_cons_self x xs)]
    exact ih _ (fun y hy => h y (List.mem_cons_of_mem x hy))

theorem max_of_congr {data : List Nat} {attr attr2 : Nat → Nat}
    (h : ∀ x ∈ data, attr x = attr2 x) : max_of data attr = max_of data attr2 := by
  cases data with
  | nil => rfl
  | cons x xs =>
    show xs.foldl (fun m y => max m (attr y)) (attr x) = _
    rw [h x (List.mem_cons_self x xs)]
    exact foldl_max_congr xs _ (fun y hy => h y (List.mem_cons_of_mem x hy))

theorem min_of_congr {data : List Nat} {attr attr2 : Nat → Nat}
    (h : ∀ x ∈ data, attr x = attr2 x) : min_of data attr = min_of data attr2 := by
  cases data with
  | nil => rfl
  | cons x xs =>
    show xs.foldl (fun m y => min m (attr y)) (attr x) = _
    rw [h x (List.mem_cons_self x xs)]
    exact foldl_min_congr xs _ (fun y hy => h y (List.mem_cons_of_mem x hy))

theorem max_of_eq_listMax (data : List Nat) (attr : Nat → Nat) :
    max_of data attr = listMax (data.map attr) := by
  cases hd : data with
  | nil => rfl
  | cons x xs =>
    have hne : data ≠ [] := by
      rw [hd]
      simp
    rw [← hd]
    apply Nat.le_antisymm
    · rcases max_of_achieved attr hne with ⟨z, hz, hEq⟩
      rw [hEq]
      exact le_listMax_of_mem (List.mem_map.mpr ⟨z, hz, rfl⟩)
    · apply listMax_le
      intro y hy
      rcases List.mem_map.mp hy with ⟨z, hz, rfl⟩
      exact le_max_of attr hz

theorem min_of_eq_listMin (data : List Nat) (attr : Nat → Nat) :
    min_of data attr = listMin (data.map attr) := by
  cases hd : data with
  | nil => rfl
  | cons x xs =>
    have hne : data ≠ [] := by
      rw [hd]
      simp
    have hne2 : data.map attr ≠ [] := by
      rw [hd]
      simp
    rw [← hd]
    apply Nat.le_antisymm
    · apply le_listMin hne2
      intro y hy
      rcases List.mem_map.mp hy with ⟨z, hz, rfl⟩
      exact min_of_le attr hz
    · rcases min_of_achieved attr hne with ⟨z, hz, hEq⟩
      rw [hEq]
      exact listMin_le_mem (List.mem_map.mpr ⟨z, hz, rfl⟩)

theorem min_of_id_eq_listMin (data : List Nat) : min_of data (fun i => i) = listMin data := by
  rw [min_of_eq_listMin data (fun i => i)]
  congr 1
  exact List.map_id data

end MetaFunction

end URP

namespace URP

theorem spec_binate_eq {F : CubeList} (hwf : F.wf) (hne : F.list ≠ []) :
    spec_binate F = MetaFunction.binate_vars F := by
  rw [spec_binate, MetaFunction.binate_vars]
  apply List.filter_congr
  intro i hi
  rw [metaFactors_eq_column hwf hne (List.mem_range.mp hi)]

theorem spec_unate_eq {F : CubeList} (hwf : F.wf) (hne : F.list ≠ []) :
    spec_unate F = MetaFunction.unate_vars F := by
  rw [spec_unate, MetaFunction.unate_vars]
  apply List.filter_congr
  intro i hi
  rw [metaFactors_eq_column hwf hne (List.mem_range.mp hi)]

theorem binate_map_count_eq {F : CubeList} (hwf : F.wf) (hne : F.list ≠ []) :
    (MetaFunction.binate_vars F).map (fun j => MetaVariable.count_terms (metaFactors F j))
      = (MetaFunction.binate_vars F).map (fun j => MetaVariable.count_terms (column F j)) := by
  apply List.map_congr_left
  intro j hj
  rw [metaFactors_eq_column hwf hne (List.mem_range.mp (List.mem_filter.mp hj).1)]

theorem unate_map_count_eq {F : CubeList} (hwf : F.wf) (hne : F.list ≠ []) :
    (MetaFunction.unate_vars F).map (fun j => MetaVariable.count_terms (metaFactors F j))
      = (MetaFunction.unate_vars F).map (fun j => MetaVariable.count_terms (column F j)) := by
  apply List.map_congr_left
  intro j hj
  rw [metaFactors_eq_column hwf hne (List.mem_range.mp (List.mem_filter.mp hj).1)]

theorem spec_keep_binate_eq {F : CubeList} (hwf : F.wf) (hne : F.list ≠ []) :
    spec_keep_binate F = MetaFunction.most_binate_vars F := by
  rw [spec_keep_binate, MetaFunction.most_binate_vars]
  rw [spec_binate_eq hwf hne]
  rw [MetaFunction.max_of_eq_listMax (MetaFunction.binate_vars F)
    (fun j => MetaVariable.count_terms (metaFactors F j))]
  rw [binate_map_count_eq hwf hne]
  apply List.filter_congr
  intro i hi
  rw [metaFactors_eq_column hwf hne (List.mem_range.mp (List.mem_filter.mp hi).1)]

theorem spec_keep_unate_eq {F : CubeList} (hwf : F.wf) (hne : F.list ≠ []) :
    spec_keep_unate F = MetaFunction.most_unate_vars F := by
  rw [spec_keep_unate, MetaFunction.most_unate_vars]
  rw [spec_unate_eq hwf hne]
  rw [MetaFunction.max_of_eq_listMax (MetaFunction.unate_vars F)
    (fun j => MetaVariable.count_terms (metaFactors F j))]
  rw [unate_map_count_eq hwf hne]
  apply List.filter_congr
  intro i hi
  rw [metaFactors_eq_column hwf hne (List.mem_range.mp (List.mem_filter.mp hi).1)]

theorem most_binate_mem_range {F : CubeList} {i : Nat}
    (hi : i ∈ MetaFunction.most_binate_vars F) : i ∈ List.range F.N :=
  (List.mem_filter.mp (MetaFunction.most_binate_subset hi)).1

theorem spec_keep_balanced_eq {F : CubeList} (hwf : F.wf) (hne : F.list ≠ []) :
    spec_keep_balanced F = MetaFunction.most_balanced_vars F := by
  rw [spec_keep_balanced, MetaFunction.most_balanced_vars]
  rw [spec_keep_binate_eq hwf hne]
  rw [MetaFunction.min_of_eq_listMin (MetaFunction.most_binate_vars F)
    (fun j => MetaVariable.abs_t_minus_c (metaFactors F j))]
  rw [show (MetaFunction.most_binate_vars F).map
        (fun j => MetaVariable.abs_t_minus_c (metaFactors F j))
      = (MetaFunction.most_binate_vars F).map
        (fun j => MetaVariable.abs_t_minus_c (column F j)) from
    List.map_congr_left (fun j hj => by
      rw [metaFactors_eq_column hwf hne (List.mem_range.mp (most_binate_mem_range hj))])]
  apply List.filter_congr
  intro i hi
  rw [metaFactors_eq_column hwf hne (List.mem_range.mp (most_binate_mem_range hi))]

theorem choose_eq_spec {F : CubeList} (hwf : F.wf) (hne : F.list ≠ []) :
    MetaFunction.choose_recursion_variable F = spec_choose_variable F := by
  rw [spec_choose_variable, spec_binate_eq hwf hne, spec_keep_balanced_eq hwf hne,
    spec_keep_unate_eq hwf hne]
  rw [MetaFunction.choose_recursion_variable]
  by_cases hB : (MetaFunction.binate_vars F).length > 0
  · have hBne : MetaFunction.binate_vars F ≠ [] := by
      intro hnil
      rw [hnil] at hB
      exact absurd hB (by simp)
    rw [if_pos hB, if_pos hBne]
    by_cases hl1 : (MetaFunction.most_binate_vars F).length = 1
    · rw [if_pos hl1]
      rcases List.length_eq_one.mp hl1 with ⟨x, hx⟩
      have hmbb : MetaFunction.most_balanced_vars F = [x] := by
        rw [MetaFunction.most_balanced_vars, hx]
        simp [MetaFunction.min_of]
      rw [hx, hmbb]
      rfl
    · rw [if_neg hl1]
      by_cases hl2 : (MetaFunction.most_balanced_vars F).length = 1
      · rw [if_pos hl2]
        rcases List.length_eq_one.mp hl2 with ⟨x, hx⟩
        rw [hx]
        rfl
      · rw [if_neg hl2]
        exact MetaFunction.min_of_id_eq_listMin _
  · rw [if_neg hB,
      if_neg (show ¬(MetaFunction.binate_vars F ≠ []) from
        fun hcon => hcon (List.length_eq_zero.mp (by omega)))]
    by_cases hl : (MetaFunction.most_unate_vars F).length = 1
    · rw [if_pos hl]
      rcases List.length_eq_one.mp hl with ⟨x, hx⟩
      rw [hx]
      rfl
    · rw [if_neg hl]
      exact MetaFunction.min_of_id_eq_listMin _

end URP

namespace URP

theorem list_any_perm {α : Type} {l l2 : List α} (h : l.Perm l2) (p : α → Bool) :
    l.any p = l2.any p := by
  apply bool_eq_of_iff
  rw [List.any_eq_true, List.any_eq_true]
  constructor
  · rintro ⟨x, hx, hpx⟩
    exact ⟨x, h.mem_iff.mp hx, hpx⟩
  · rintro ⟨x, hx, hpx⟩
    exact ⟨x, h.mem_iff.mpr hx, hpx⟩

theorem metaFactors_perm {F G : CubeList} (hwfF : F.wf) (hwfG : G.wf)
    (hdim : F.dim = G.dim) (hperm : F.list.Perm G.list) :
    ∀ i, (metaFactors F i).Perm (metaFactors G i) := by
  intro i
  by_cases hnil : F.list = []
  · have hnil2 : G.list = [] := by
      have hlen := hperm.length_eq
      rw [hnil] at hlen
      exact List.length_eq_zero.mp hlen.symm
    simp [metaFactors, hnil, hnil2]
  · have hneG : G.list ≠ [] := by
      intro hn
      have hlen := hperm.length_eq
      rw [hn] at hlen
      exact hnil (List.length_eq_zero.mp hlen)
    have hF : (F.list.headD []).length = F.dim := CubeList.headD_length hwfF hnil
    have hG : (G.list.headD []).length = G.dim := CubeList.headD_length hwfG hneG
    simp only [metaFactors]
    rw [hF, hG, ← hdim]
    by_cases hcond : F.dim = 0 ∨ F.dim ≤ i
    · rw [if_pos hcond, if_pos hcond]
    · rw [if_neg hcond, if_neg hcond]
      exact hperm.map _

namespace MetaVariable

theorem has_pos_perm {ms ms2 : List Factor} (h : ms.Perm ms2) : has_pos ms = has_pos ms2 :=
  list_any_perm h _

theorem has_neg_perm {ms ms2 : List Factor} (h : ms.Perm ms2) : has_neg ms = has_neg ms2 :=
  list_any_perm h _

theorem count_terms_perm {ms ms2 : List Factor} (h : ms.Perm ms2) :
    count_terms ms = count_terms ms2 := by
  rw [count_terms, count_terms, count_pos, count_pos, count_neg, count_neg,
    h.countP_eq, h.countP_eq]

theorem abs_t_minus_c_perm {ms ms2 : List Factor} (h : ms.Perm ms2) :
    abs_t_minus_c ms = abs_t_minus_c ms2 := by
  rw [abs_t_minus_c, abs_t_minus_c, count_pos, count_pos, count_neg, count_neg,
    h.countP_eq, h.countP_eq]

theorem is_binate_perm {ms ms2 : List Factor} (h : ms.Perm ms2) :
    is_binate_in_fn ms = is_binate_in_fn ms2 := by
  rw [is_binate_in_fn, is_binate_in_fn, has_pos_perm h, has_neg_perm h]

theorem is_unate_perm {ms ms2 : List Factor} (h : ms.Perm ms2) :
    is_unate_in_fn ms = is_unate_in_fn ms2 := by
  rw [is_unate_in_fn, is_unate_in_fn, has_pos_perm h, has_neg_perm h]

end MetaVariable

theorem choose_congr {F G : CubeList} (hN : F.N = G.N)
    (hmf : ∀ i, (metaFactors F i).Perm (metaFactors G i)) :
    MetaFunction.choose_recursion_variable F = MetaFunction.choose_recursion_variable G := by
  have hct : ∀ i, MetaVariable.count_terms (metaFactors F i)
      = MetaVariable.count_terms (metaFactors G i) :=
    fun i => MetaVariable.count_terms_perm (hmf i)
  have hab : ∀ i, MetaVariable.abs_t_minus_c (metaFactors F i)
      = MetaVariable.abs_t_minus_c (metaFactors G i) :=
    fun i => MetaVariable.abs_t_minus_c_perm (hmf i)
  have hbin : MetaFunction.binate_vars F = MetaFunction.binate_vars G := by
    rw [MetaFunction.binate_vars, MetaFunction.binate_vars, ← hN]
    exact List.filter_congr (fun i _ => MetaVariable.is_binate_perm (hmf i))
  have huna : MetaFunction.unate_vars F = MetaFunction.unate_vars G := by
    rw [MetaFunction.unate_vars, MetaFunction.unate_vars, ← hN]
    exact List.filter_congr (fun i _ => MetaVariable.is_unate_perm (hmf i))
  have hmb : MetaFunction.most_binate_vars F = MetaFunction.most_binate_vars G := by
    rw [MetaFunction.most_binate_vars, MetaFunction.most_binate_vars, hbin]
    rw [MetaFunction.max_of_congr (fun x _ => hct x)]
    exact List.filter_congr (fun i _ => by rw [hct i])
  have hmbb : MetaFunction.most_balanced_vars F = MetaFunction.most_balanced_vars G := by
    rw [MetaFunction.most_balanced_vars, MetaFunction.most_balanced_vars, hmb]
    rw [MetaFunction.min_of_congr (fun x _ => hab x)]
    exact List.filter_congr (fun i _ => by rw [hab i])
  have hmu : MetaFunction.most_unate_vars F = MetaFunction.most_unate_vars G := by
    rw [MetaFunction.most_unate_vars, MetaFunction.most_unate_vars, huna]
    rw [MetaFunction.max_of_congr (fun x _ => hct x)]
    exact List.filter_congr (fun i _ => by rw [hct i])
  rw [MetaFunction.choose_recursion_variable, MetaFunction.choose_recursion_variable,
    hbin, hmb, hmbb, hmu]

end URP

namespace URP

/-- Claim C4: whenever the SOP has a binate or unate variable, the source
    selection procedure returns exactly the variable of the staged spec
    rule (max count_terms among binate, then min balance, then least
    index; else max count_terms among unate, then least index), the
    returned variable is itself binate or unate and below the arity, and
    the choice is insensitive to the order of the cubes. -/
theorem claim_C4_choose (F : CubeList) (hwf : F.wf)
    (hex : ∃ i, i < F.N ∧ (MetaVariable.is_binate_in_fn (column F i) = true
        ∨ MetaVariable.is_unate_in_fn (column F i) = true)) :
    (MetaFunction.choose_recursion_variable F = spec_choose_variable F)
    ∧ (MetaVariable.is_binate_in_fn (column F (MetaFunction.choose_recursion_variable F)) = true
        ∨ MetaVariable.is_unate_in_fn (column F (MetaFunction.choose_recursion_variable F)) = true)
    ∧ MetaFunction.choose_recursion_variable F < F.N
    ∧ (∀ G : CubeList, G.wf → G.dim = F.dim → F.list.Perm G.list →
        MetaFunction.choose_recursion_variable F = MetaFunction.choose_recursion_variable G) := by
  obtain ⟨i, hiN, hbu⟩ := hex
  have hhas : MetaVariable.has_pos (column F i) = true
      ∨ MetaVariable.has_neg (column F i) = true := by
    rcases hbu with h | h
    · exact has_of_binate h
    · exact has_of_unate h
  have hne : F.list ≠ [] := by
    rcases hhas with h | h
    · rcases has_pos_column_iff.mp h with ⟨c, hc, _⟩
      exact List.ne_nil_of_mem hc
    · rcases has_neg_column_iff.mp h with ⟨c, hc, _⟩
      exact List.ne_nil_of_mem hc
  have hsel : MetaFunction.binate_vars F ≠ [] ∨ MetaFunction.unate_vars F ≠ [] := by
    rcases hbu with h | h
    · left
      apply List.ne_nil_of_mem (a := i)
      apply mem_binate_vars.mpr
      rw [metaFactors_eq_column hwf hne hiN]
      exact ⟨hiN, h⟩
    · right
      apply List.ne_nil_of_mem (a := i)
      apply mem_unate_vars.mpr
      rw [metaFactors_eq_column hwf hne hiN]
      exact ⟨hiN, h⟩
  have hmem := MetaFunction.choose_mem F hsel
  have hclt : MetaFunction.choose_recursion_variable F < F.N := by
    rcases hmem with h | h
    · exact (mem_binate_vars.mp h).1
    · exact (mem_unate_vars.mp h).1
  refine ⟨choose_eq_spec hwf hne, ?_, hclt, ?_⟩
  · rcases hmem with h | h
    · left
      have hb := (mem_binate_vars.mp h).2
      rwa [metaFactors_eq_column hwf hne hclt] at hb
    · right
      have hu := (mem_unate_vars.mp h).2
      rwa [metaFactors_eq_column hwf hne hclt] at hu
  · intro G hwfG hdim hperm
    exact choose_congr hdim.symm (metaFactors_perm hwf hwfG hdim.symm hperm)

theorem claim_C4_choose_witness :
    (MetaFunction.choose_recursion_variable ⟨2, [[Factor.pos, Factor.one],
        [Factor.neg, Factor.pos]]⟩
      = spec_choose_variable ⟨2, [[Factor.pos, Factor.one], [Factor.neg, Factor.pos]]⟩)
    ∧ (MetaVariable.is_binate_in_fn (column ⟨2, [[Factor.pos, Factor.one],
          [Factor.neg, Factor.pos]]⟩
        (MetaFunction.choose_recursion_variable ⟨2, [[Factor.pos, Factor.one],
          [Factor.neg, Factor.pos]]⟩)) = true
      ∨ MetaVariable.is_unate_in_fn (column ⟨2, [[Factor.pos, Factor.one],
          [Factor.neg, Factor.pos]]⟩
        (MetaFunction.choose_recursion_variable ⟨2, [[Factor.pos, Factor.one],
          [Factor.neg, Factor.pos]]⟩)) = true)
    ∧ MetaFunction.choose_recursion_variable ⟨2, [[Factor.pos, Factor.one],
        [Factor.neg, Factor.pos]]⟩
      < CubeList.N ⟨2, [[Factor.pos, Factor.one], [Factor.neg, Factor.pos]]⟩
    ∧ MetaFunction.choose_recursion_variable ⟨2, [[Factor.pos, Factor.one],
        [Factor.neg, Factor.pos]]⟩
      = MetaFunction.choose_recursion_variable ⟨2, [[Factor.neg, Factor.pos],
        [Factor.pos, Factor.one]]⟩ := by
  have h := claim_C4_choose ⟨2, [[Factor.pos, Factor.one], [Factor.neg, Factor.pos]]⟩
    (by decide) ⟨0, by decide, Or.inl (by decide)⟩
  exact ⟨h.1, h.2.1, h.2.2.1,
    h.2.2.2 ⟨2, [[Factor.neg, Factor.pos], [Factor.pos, Factor.one]]⟩ (by decide) rfl
      (List.Perm.swap _ _ [])⟩

end URP
